import Mathlib

/-!
Verification of the acl-engine repository (Go) against its natural-language
specification.  Go strings are byte slices; we model them as `List Nat`
(one entry per byte).  Machine integers are modelled as `Nat`/`Int`.
Bit sequences stored by the source as packed `[]uint64` words are modelled
as `List Bool` (one entry per bit); the source's `rank`/`select` index
acceleration structures are modelled by their defining contract
(number of ones before a position, position of the i-th one), which is the
documented purpose of the sampled indices built by `indexSelect32R64`.
-/

/-! ## Byte-string utilities (Go strings package, on byte strings) -/

/-- Per-byte ASCII lowercasing; agrees with Go strings.ToLower on ASCII input. -/
def asciiLower (b : Nat) : Nat := if 65 ≤ b ∧ b ≤ 90 then b + 32 else b

/-- Per-byte ASCII uppercasing; agrees with Go strings.ToUpper on ASCII input. -/
def asciiUpper (b : Nat) : Nat := if 97 ≤ b ∧ b ≤ 122 then b - 32 else b

/-- Go strings.ToLower, modelled on ASCII byte strings. -/
def lowerB (s : List Nat) : List Nat := s.map asciiLower

/-- Go strings.ToUpper, modelled on ASCII byte strings. -/
def upperB (s : List Nat) : List Nat := s.map asciiUpper

/-- Go strings.HasPrefix: startsWithB s p is true iff p is an initial segment of s. -/
def startsWithB : List Nat → List Nat → Bool
  | _, [] => true
  | [], _ :: _ => false
  | a :: s, b :: p => a == b && startsWithB s p

/-- Go strings.HasSuffix on byte strings. -/
def hasSuffixB (s f : List Nat) : Bool := startsWithB s.reverse f.reverse

/-- Go strings.Contains on byte strings. -/
def containsB : List Nat → List Nat → Bool
  | [], sub => startsWithB [] sub
  | a :: rest, sub => startsWithB (a :: rest) sub || containsB rest sub

/-- Go bytes.Compare (and string comparison), lexicographic on bytes. -/
def compareBytes : List Nat → List Nat → Ordering
  | [], [] => Ordering.eq
  | [], _ :: _ => Ordering.lt
  | _ :: _, [] => Ordering.gt
  | a :: as, b :: bs =>
    if a < b then Ordering.lt else if b < a then Ordering.gt else compareBytes as bs

/-- Bytes of an ASCII Lean string literal, for readable concrete inputs. -/
def strBytes (s : String) : List Nat := s.data.map Char.toNat

/-- Insertion into a sorted list; helper for sortByLe. -/
def insertByLe {α : Type} (le : α → α → Bool) (x : α) : List α → List α
  | [] => [x]
  | y :: ys => if le x y then x :: y :: ys else y :: insertByLe le x ys

/-- Deterministic comparison sort.  The source sorts with sort.Strings and
    sort.Slice; for the total lexicographic comparators used there any
    correct sort produces the same list, and we model it by insertion sort. -/
def sortByLe {α : Type} (le : α → α → Bool) : List α → List α
  | [] => []
  | x :: xs => insertByLe le x (sortByLe le xs)

/-! ## pkg/acl/domain: succinct reverse-domain trie (succinct.go, matcher.go) -/

/-- Sentinel label rootLabel from matcher.go: the newline byte marking
    root-domain patterns such as google.com. -/
def rootLabel : Nat := 10

/-- Sentinel label prefixLabel from matcher.go: the carriage-return byte
    marking subdomain-only patterns such as .google.com. -/
def prefLabel : Nat := 13

/-- succinctSet from succinct.go.  Bit sequences are one Bool per bit; the
    rank and select index arrays are modelled by their contract (see below). -/
structure SuccinctSet where
  leaves : List Bool
  labelBitmap : List Bool
  labels : List Nat

/-- getBit from succinct.go: bits beyond the stored words read as zero. -/
def getBitL (bm : List Bool) (i : Nat) : Bool := bm.getD i false

/-- countZeros from succinct.go: number of 0-bits before position i
    (rank64 over the index built by indexRank64 returns the number of
    1-bits before i, and countZeros returns i minus that). -/
def countZerosL (bm : List Bool) (i : Nat) : Nat := i - (bm.take i).count true

/-- selectIthOne from succinct.go: position of the i-th 1-bit (0-indexed),
    as computed by select32R64 over the indices built by indexSelect32R64.
    Past the last 1-bit the source returns a position beyond the bitmap;
    we return the bitmap length plus the remaining count. -/
def selectIthOneL : List Bool → Nat → Nat
  | [], _ => 0
  | true :: rest, i => if i = 0 then 0 else selectIthOneL rest (i - 1) + 1
  | false :: rest, i => selectIthOneL rest i + 1

/-- Queue element of the BFS trie construction in newSuccinctSet. -/
structure QElt where
  s : Nat
  e : Nat
  col : Nat

/-- Byte col of key j, as read by the construction (keys j col). -/
def byteAt (keys : List (List Nat)) (j col : Nat) : Nat := (keys.getD j []).getD col 0

/-- Scan forward from index j while the key byte at col equals b, staying
    inside the range whose remaining size is the fuel; mirrors the inner
    grouping loop of newSuccinctSet. -/
def runEnd (keys : List (List Nat)) (col b : Nat) : Nat → Nat → Nat
  | 0, j => j
  | fuel + 1, j =>
    if col < (keys.getD j []).length && byteAt keys j col == b then
      runEnd keys col b fuel (j + 1)
    else j

/-- Consecutive grouping of keys s..e by their byte at col, as performed by
    the middle loop of newSuccinctSet; returns (start, end) index pairs.
    An index whose key is already exhausted (col beyond its length) is
    skipped; on the sorted duplicate-free key lists produced by NewMatcher
    no such index can occur (the Go code would panic on one). -/
def subGroups (keys : List (List Nat)) (col : Nat) : Nat → Nat → Nat → List (Nat × Nat)
  | 0, _, _ => []
  | fuel + 1, j, e =>
    if j < e then
      if col < (keys.getD j []).length then
        let j2 := runEnd keys col (byteAt keys j col) (e - (j + 1)) (j + 1)
        (j, j2) :: subGroups keys col fuel j2 e
      else subGroups keys col fuel (j + 1) e
    else []

/-- One BFS step per fuel unit: processes the queue of newSuccinctSet,
    emitting the leaf bit, the label-bitmap run and the labels of each node
    in processing (BFS) order.  The fuel is an upper bound on the number of
    nodes, supplied by buildFuel. -/
def buildLoop (keys : List (List Nat)) : Nat → List QElt → SuccinctSet
  | _, [] => ⟨[], [], []⟩
  | 0, _ :: _ => ⟨[], [], []⟩
  | fuel + 1, elt :: rest =>
    let isLeaf := elt.col == (keys.getD elt.s []).length
    let s2 := if isLeaf then elt.s + 1 else elt.s
    let groups := subGroups keys elt.col (elt.e - s2) s2 elt.e
    let children := groups.map fun g => QElt.mk g.1 g.2 (elt.col + 1)
    let glabels := groups.map fun g => byteAt keys g.1 elt.col
    let r := buildLoop keys fuel (rest ++ children)
    ⟨isLeaf :: r.leaves,
     (groups.map fun _ => false) ++ true :: r.labelBitmap,
     glabels ++ r.labels⟩

/-- Upper bound on the number of BFS nodes of the trie: every node consumes
    either a key byte or a key terminator, plus one for the root. -/
def buildFuel (keys : List (List Nat)) : Nat :=
  2 + keys.foldr (fun k a => a + k.length + 1) 0

/-- newSuccinctSet from succinct.go. -/
def newSuccinctSet (keys : List (List Nat)) : SuccinctSet :=
  if keys.length = 0 then ⟨[], [], []⟩
  else buildLoop keys (buildFuel keys) [⟨0, keys.length, 0⟩]

/-- Result of scanning the outgoing edges of one node in Matcher.has:
    either an immediate match (sentinel hit), the bitmap position of the
    edge labelled with the current character, or failure. -/
inductive ScanRes where
  | hit : ScanRes
  | edge : Nat → ScanRes
  | miss : ScanRes

/-- Fuel bound for one edge scan: the scan stops at the latest when the
    label index reaches the end of the label array. -/
def scanFuel (st : SuccinctSet) (nodeId bmIdx : Nat) : Nat :=
  st.labels.length + nodeId + 1 - bmIdx

/-- Edge scan of Matcher.has (the inner loop): walk the current node's
    edges; a prefixLabel edge is an immediate hit; a rootLabel edge is a
    hit when the current character is a dot and the edge's child is a leaf;
    an edge labelled with the current character is followed. -/
def scanEdges (st : SuccinctSet) (nodeId cc : Nat) : Nat → Nat → ScanRes
  | 0, _ => ScanRes.miss
  | fuel + 1, bmIdx =>
    if getBitL st.labelBitmap bmIdx then ScanRes.miss
    else if bmIdx - nodeId ≥ st.labels.length then ScanRes.miss
    else
      let nl := st.labels.getD (bmIdx - nodeId) 0
      if nl == prefLabel then ScanRes.hit
      else if nl == rootLabel && (cc == 46 &&
              getBitL st.leaves (countZerosL st.labelBitmap (bmIdx + 1))) then ScanRes.hit
      else if nl == cc then ScanRes.edge bmIdx
      else scanEdges st nodeId cc fuel (bmIdx + 1)

/-- Terminal scan of Matcher.has (the loop after the key is consumed):
    succeeds iff the node has a prefixLabel or rootLabel edge. -/
def scanFinal (st : SuccinctSet) (nodeId : Nat) : Nat → Nat → Bool
  | 0, _ => false
  | fuel + 1, bmIdx =>
    if getBitL st.labelBitmap bmIdx then false
    else if bmIdx - nodeId ≥ st.labels.length then false
    else
      let nl := st.labels.getD (bmIdx - nodeId) 0
      if nl == prefLabel || nl == rootLabel then true
      else scanFinal st nodeId fuel (bmIdx + 1)

/-- Main loop of Matcher.has: consume the reversed key character by
    character, following trie edges; after the key is consumed succeed on a
    leaf or on a remaining sentinel edge. -/
def hasLoop (st : SuccinctSet) : List Nat → Nat → Nat → Bool
  | [], nodeId, bmIdx =>
    if getBitL st.leaves nodeId then true
    else scanFinal st nodeId (scanFuel st nodeId bmIdx) bmIdx
  | c :: cs, nodeId, bmIdx =>
    match scanEdges st nodeId c (scanFuel st nodeId bmIdx) bmIdx with
    | ScanRes.hit => true
    | ScanRes.miss => false
    | ScanRes.edge b =>
      let nodeId2 := countZerosL st.labelBitmap (b + 1)
      if nodeId2 = 0 then false
      else hasLoop st cs nodeId2 (selectIthOneL st.labelBitmap (nodeId2 - 1) + 1)

/-- Matcher from matcher.go. -/
structure DomainMatcher where
  set : SuccinctSet

/-- Matcher.has from matcher.go, including its empty-structure guards. -/
def matcherHas (m : DomainMatcher) (key : List Nat) : Bool :=
  if m.set.labelBitmap.length = 0 || m.set.labels.length = 0 then false
  else hasLoop m.set key 0 0

/-- reverseDomain from succinct.go, byte-wise reversal.  The source
    reverses rune-wise, which coincides with byte-wise reversal on the
    ASCII domains considered in the theorems below. -/
def reverseDomain (s : List Nat) : List Nat := s.reverse

/-- Key inserted by NewMatcher for a (lowercased) suffix entry: a leading
    dot selects the subdomain-only sentinel, otherwise the root sentinel. -/
def suffixKey (d : List Nat) : List Nat :=
  if startsWithB d [46] then reverseDomain (prefLabel :: d)
  else reverseDomain (rootLabel :: d)

/-- Deduplicating accumulation loop of NewMatcher: lowercase each entry,
    skip entries already seen, and emit the key built by f, preserving
    input order.  Returns the extended seen set and the emitted keys. -/
def dedupKeys (f : List Nat → List Nat) :
    List (List Nat) → List (List Nat) → List (List Nat) × List (List Nat)
  | seen, [] => (seen, [])
  | seen, d :: ds =>
    let dl := lowerB d
    if seen.contains dl then dedupKeys f seen ds
    else
      let r := dedupKeys f (dl :: seen) ds
      (r.1, f dl :: r.2)

/-- Lexicographic order used by sort.Strings on the key list. -/
def lexLeB (a b : List Nat) : Bool := !(compareBytes a b == Ordering.gt)

/-- NewMatcher from matcher.go: empty inputs give the empty set; otherwise
    suffix entries (with sentinel) and exact entries are deduplicated,
    sorted and compiled into the succinct set. -/
def NewMatcher (domains domainSuffix : List (List Nat)) : DomainMatcher :=
  if domains.length = 0 && domainSuffix.length = 0 then ⟨⟨[], [], []⟩⟩
  else
    let p1 := dedupKeys suffixKey [] domainSuffix
    let p2 := dedupKeys reverseDomain p1.1 domains
    ⟨newSuccinctSet (sortByLe lexLeB (p1.2 ++ p2.2))⟩

/-- Matcher.Match from matcher.go: guard the empty set, lowercase the
    query, reverse it and run has. -/
def matcherMatch (m : DomainMatcher) (domain : List Nat) : Bool :=
  if m.set.labels.length = 0 then false
  else matcherHas m (reverseDomain (lowerB domain))

/-! ## pkg/acl: HostInfo and the geoip matcher (matchers_geodat.go) -/

/-- HostInfo: optional domain name plus optional IPv4/IPv6 byte addresses. -/
structure HostInfo where
  name : List Nat
  ipv4 : Option (List Nat)
  ipv6 : Option (List Nat)

/-- net.IPNet as stored by newGeoIPMatcher: base IP bytes plus the mask
    net.CIDRMask(maskOnes, maskBits). -/
structure IPNet where
  ip : List Nat
  maskOnes : Nat
  maskBits : Nat
deriving DecidableEq

/-- Byte i of net.CIDRMask(ones, bits): a run of ones ending after bit
    position ones, zero afterwards. -/
def maskByte (ones i : Nat) : Nat :=
  256 - 2 ^ (8 - min 8 (ones - 8 * i))

/-- net.IPNet.Contains: false for an invalid mask (more ones than bits) or
    a length mismatch, otherwise every base byte and address byte agree
    under the mask. -/
def ipnetContains (c : IPNet) (ip : List Nat) : Bool :=
  c.maskOnes ≤ c.maskBits && c.ip.length * 8 == c.maskBits && c.ip.length == ip.length &&
  (List.range ip.length).all fun i =>
    c.ip.getD i 0 &&& maskByte c.maskOnes i == ip.getD i 0 &&& maskByte c.maskOnes i

/-- net.IP.To4: a 4-byte address itself, a 16-byte IPv4-mapped address
    reduced to its last 4 bytes, anything else none. -/
def to4 (ip : List Nat) : Option (List Nat) :=
  if ip.length = 4 then some ip
  else if ip.length = 16 && startsWithB ip [0, 0, 0, 0, 0, 0, 0, 0, 0, 0, 255, 255] then
    some (ip.drop 12)
  else none

/-- geoipMatcher from matchers_geodat.go: length-sorted CIDR lists plus the
    inverse flag. -/
structure GeoipMatcher where
  n4 : List IPNet
  n6 : List IPNet
  inverse : Bool

/-- Binary-search loop of geoipMatcher.matchIP: test containment at the
    midpoint, otherwise recurse toward the side selected by comparing the
    base address.  One fuel unit per iteration; the interval shrinks every
    iteration, so list length plus one is sufficient fuel. -/
def searchLoop (n : List IPNet) (ip : List Nat) : Nat → Int → Int → Bool
  | 0, _, _ => false
  | fuel + 1, left, right =>
    if left ≤ right then
      let mid := ((left + right) / 2).toNat
      let c := n.getD mid ⟨[], 0, 0⟩
      if ipnetContains c ip then true
      else if compareBytes c.ip ip == Ordering.lt then
        searchLoop n ip fuel (mid + 1) right
      else searchLoop n ip fuel left (mid - 1)
    else false

/-- geoipMatcher.matchIP: canonicalise to 4 bytes when possible and search
    the corresponding sorted list.  Does not handle the inverse flag. -/
def matchIP (m : GeoipMatcher) (ip : List Nat) : Bool :=
  match to4 ip with
  | some ip4 => searchLoop m.n4 ip4 (m.n4.length + 1) 0 ((m.n4.length : Int) - 1)
  | none => searchLoop m.n6 ip (m.n6.length + 1) 0 ((m.n6.length : Int) - 1)

/-- geoipMatcher.Match: an address hit answers the negated inverse flag,
    and with no hit (including an empty host) the inverse flag itself. -/
def geoipMatch (m : GeoipMatcher) (host : HostInfo) : Bool :=
  if (host.ipv4.map (matchIP m)).getD false then !m.inverse
  else if (host.ipv6.map (matchIP m)).getD false then !m.inverse
  else m.inverse

/-- geodat.CIDR: raw IP bytes plus prefix length, as delivered by a loader. -/
structure GeoCIDR where
  ip : List Nat
  prefixLen : Nat
deriving DecidableEq

/-- geodat.GeoIP: a country's CIDR list with the inverse-match flag. -/
structure GeoIPData where
  countryCode : List Nat
  cidr : List GeoCIDR
  inverseMatch : Bool
deriving DecidableEq

/-- Partition loop of newGeoIPMatcher: 4-byte entries build v4 nets with a
    32-bit mask, 16-byte entries v6 nets with a 128-bit mask, any other
    length is the invalid-IP-length error (none). -/
def splitCidrs : List GeoCIDR → Option (List IPNet × List IPNet)
  | [] => some ([], [])
  | c :: rest => do
    let r ← splitCidrs rest
    if c.ip.length = 4 then some (⟨c.ip, c.prefixLen, 32⟩ :: r.1, r.2)
    else if c.ip.length = 16 then some (r.1, ⟨c.ip, c.prefixLen, 128⟩ :: r.2)
    else none

/-- Comparator of the sort.Slice calls in newGeoIPMatcher. -/
def ipnetLe (a b : IPNet) : Bool := compareBytes a.ip b.ip == Ordering.lt

/-- newGeoIPMatcher from matchers_geodat.go. -/
def newGeoIPMatcher (list : GeoIPData) : Option GeoipMatcher :=
  match splitCidrs list.cidr with
  | none => none
  | some r => some ⟨sortByLe ipnetLe r.1, sortByLe ipnetLe r.2, list.inverseMatch⟩

/-! ## pkg/acl: the geosite matcher (matchers_geodat.go) -/

/-- geodat.Domain_Type values: Plain, Regex, RootDomain, Full. -/
inductive GeodatDomainType where
  | plain : GeodatDomainType
  | regex : GeodatDomainType
  | rootDomain : GeodatDomainType
  | full : GeodatDomainType
deriving DecidableEq

/-- geodat.Domain: type, value and the attribute keys (domainAttributeToMap
    keeps only the keys, every attribute reading as the boolean true). -/
structure GeodatDomain where
  dtype : GeodatDomainType
  value : List Nat
  attrKeys : List (List Nat)
deriving DecidableEq

/-- geodat.GeoSite: a site code's domain entries. -/
structure GeoSiteData where
  countryCode : List Nat
  domain : List GeodatDomain
deriving DecidableEq

/-- geositeDomainType from matchers_geodat.go. -/
inductive GeositeDomainType where
  | plain : GeositeDomainType
  | regex : GeositeDomainType
  | root : GeositeDomainType
  | full : GeositeDomainType
deriving DecidableEq

/-- geositeDomain from matchers_geodat.go.  The compiled regexp is
    modelled abstractly as a Boolean matching function. -/
structure GeositeDomain where
  dtype : GeositeDomainType
  value : List Nat
  regexFn : Option (List Nat → Bool)
  attrs : List (List Nat)

/-- geositeMatcher from matchers_geodat.go. -/
structure GeositeMatcher where
  domainMatcher : Option DomainMatcher
  plainDomains : List GeositeDomain
  regexDomains : List GeositeDomain
  attrDomains : List GeositeDomain
  attrs : List (List Nat)

/-- Attribute filter at the top of matchDomainWithAttrs: with required
    attributes, an entry with no attributes fails, and every required
    attribute must be present on the entry. -/
def attrsCheck (mAttrs dAttrs : List (List Nat)) : Bool :=
  if mAttrs.length > 0 then
    if dAttrs.length = 0 then false
    else mAttrs.all fun a => dAttrs.contains a
  else true

/-- geositeMatcher.matchDomainWithAttrs: attribute filter, then the
    type-specific predicate on the query name (keyword containment, regex,
    exact equality, or root-domain equality-or-dot-suffix). -/
def matchDomainWithAttrs (m : GeositeMatcher) (d : GeositeDomain) (host : HostInfo) : Bool :=
  if attrsCheck m.attrs d.attrs then
    match d.dtype with
    | GeositeDomainType.plain => containsB host.name d.value
    | GeositeDomainType.regex =>
      match d.regexFn with
      | some f => f host.name
      | none => false
    | GeositeDomainType.full => host.name == d.value
    | GeositeDomainType.root =>
      host.name == d.value || hasSuffixB host.name (46 :: d.value)
  else false

/-- geositeMatcher.Match: succinct-trie fast path first, then the plain,
    regex and attribute lists in order. -/
def geositeMatch (m : GeositeMatcher) (host : HostInfo) : Bool :=
  (match m.domainMatcher with
   | some dm => matcherMatch dm host.name
   | none => false) ||
  m.plainDomains.any (fun d => matchDomainWithAttrs m d host) ||
  m.regexDomains.any (fun d => matchDomainWithAttrs m d host) ||
  m.attrDomains.any (fun d => matchDomainWithAttrs m d host)

/-- Classification accumulator of newGeositeMatcher. -/
structure GsAcc where
  fullDomains : List (List Nat)
  rootDomains : List (List Nat)
  plainDomains : List GeositeDomain
  regexDomains : List GeositeDomain
  attrDomains : List GeositeDomain

/-- Classification loop of newGeositeMatcher: plain and regex entries to
    their scan lists (a regex that fails to compile aborts with none),
    Full and RootDomain entries to the fast lists when no attribute check
    is required, otherwise to the attribute list.  compileRegex models
    regexp.Compile abstractly. -/
def gsClassify (attrs : List (List Nat)) (compileRegex : List Nat → Option (List Nat → Bool)) :
    List GeodatDomain → Option GsAcc
  | [] => some ⟨[], [], [], [], []⟩
  | d :: ds => do
    let acc ← gsClassify attrs compileRegex ds
    let attrMap := d.attrKeys
    let needsAttrCheck := attrs.length > 0
    let matchesAttrs :=
      if needsAttrCheck then
        if attrMap.length = 0 then false else attrs.all fun a => attrMap.contains a
      else true
    match d.dtype with
    | GeodatDomainType.plain =>
      some { acc with plainDomains :=
        ⟨GeositeDomainType.plain, d.value, none, attrMap⟩ :: acc.plainDomains }
    | GeodatDomainType.regex =>
      match compileRegex d.value with
      | none => none
      | some f =>
        some { acc with regexDomains :=
          ⟨GeositeDomainType.regex, d.value, some f, attrMap⟩ :: acc.regexDomains }
    | GeodatDomainType.full =>
      if matchesAttrs && (attrMap.length = 0 || !needsAttrCheck) then
        some { acc with fullDomains := d.value :: acc.fullDomains }
      else
        some { acc with attrDomains :=
          ⟨GeositeDomainType.full, d.value, none, attrMap⟩ :: acc.attrDomains }
    | GeodatDomainType.rootDomain =>
      if matchesAttrs && (attrMap.length = 0 || !needsAttrCheck) then
        some { acc with rootDomains := d.value :: acc.rootDomains }
      else
        some { acc with attrDomains :=
          ⟨GeositeDomainType.root, d.value, none, attrMap⟩ :: acc.attrDomains }

/-- newGeositeMatcher from matchers_geodat.go: classify the entries and
    build the fast matcher when any fast entry exists. -/
def newGeositeMatcher (list : GeoSiteData) (attrs : List (List Nat))
    (compileRegex : List Nat → Option (List Nat → Bool)) : Option GeositeMatcher :=
  match gsClassify attrs compileRegex list.domain with
  | none => none
  | some acc =>
    let dm :=
      if acc.fullDomains.length > 0 || acc.rootDomains.length > 0 then
        some (NewMatcher acc.fullDomains acc.rootDomains)
      else none
    some ⟨dm, acc.plainDomains, acc.regexDomains, acc.attrDomains, attrs⟩

/-! ## pkg/acl/singsite: sing-geosite loader (load.go, reader plumbing) -/

/-- Item of the sing-geosite reader: rule type byte and raw value.  The
    type constants are RuleTypeDomain = 0, RuleTypeDomainSuffix = 1,
    RuleTypeDomainKeyword = 2, RuleTypeDomainRegex = 3. -/
structure SingItem where
  itype : Nat
  value : List Nat
deriving DecidableEq

/-- Conversion loop of singsite.LoadGeoSite: map the reader's rule types
    onto geodat domain types, carrying the raw value through unchanged;
    unknown types are skipped. -/
def singConvertItems : List SingItem → List GeodatDomain
  | [] => []
  | item :: rest =>
    let r := singConvertItems rest
    if item.itype = 0 then ⟨GeodatDomainType.full, item.value, []⟩ :: r
    else if item.itype = 1 then ⟨GeodatDomainType.rootDomain, item.value, []⟩ :: r
    else if item.itype = 2 then ⟨GeodatDomainType.plain, item.value, []⟩ :: r
    else if item.itype = 3 then ⟨GeodatDomainType.regex, item.value, []⟩ :: r
    else r

/-- singsite.LoadGeoSite after the reader stage: for every code the entry
    is stored under the lowercased code with the converted domain list. -/
def singLoadGeoSite (entries : List (List Nat × List SingItem)) :
    List (List Nat × GeoSiteData) :=
  entries.map fun e => (lowerB e.1, ⟨e.1, singConvertItems e.2⟩)

/-! ## pkg/acl/metadb: MetaDB GeoIP loader (load.go) -/

/-- Data payload of a MetaV0 record: Go sees it as any, holding either a
    string or a slice whose items may or may not be strings (a non-string
    item is modelled as none). -/
inductive MetaV0Data where
  | str : List Nat → MetaV0Data
  | arr : List (Option (List Nat)) → MetaV0Data

/-- extractCodesFromMetaV0 from metadb/load.go: a nonempty string yields a
    single code, a slice yields its nonempty string items, anything else
    yields no codes (nil and the empty list are identified). -/
def extractCodesFromMetaV0 : MetaV0Data → List (List Nat)
  | MetaV0Data.str v => if v.length ≠ 0 then [v] else []
  | MetaV0Data.arr l =>
    l.filterMap fun it =>
      match it with
      | some s => if s.length ≠ 0 then some s else none
      | none => none

/-- net.IP.To16 as used when normalising record subnets. -/
def to16 (ip : List Nat) : List Nat :=
  if ip.length = 16 then ip
  else if ip.length = 4 then [0, 0, 0, 0, 0, 0, 0, 0, 0, 0, 255, 255] ++ ip
  else []

/-- Subnet normalisation in metadb.LoadGeoIP: 4-byte form for IPv4,
    16-byte form otherwise. -/
def normalizeIP (ip : List Nat) : List Nat :=
  match to4 ip with
  | some ip4 => ip4
  | none => to16 ip

/-- One network record of a MetaV0 database: subnet base bytes, prefix
    size, and the country-code payload. -/
structure MetaRecord where
  ipBytes : List Nat
  ones : Nat
  data : MetaV0Data

/-- Append a CIDR to a code's list in the countryNetworks map, creating
    the entry if absent (Go map assignment with append). -/
def mapAppend (m : List (List Nat × List GeoCIDR)) (k : List Nat) (c : GeoCIDR) :
    List (List Nat × List GeoCIDR) :=
  match m with
  | [] => [(k, [c])]
  | (k2, v) :: rest => if k2 == k then (k2, v ++ [c]) :: rest else (k2, v) :: mapAppend rest k c

/-- One iteration of the record loop of metadb.LoadGeoIP (MetaV0 branch):
    extract the codes, skip the record if there are none, and append the
    normalised CIDR under each lowercased code. -/
def metaStep (m : List (List Nat × List GeoCIDR)) (r : MetaRecord) :
    List (List Nat × List GeoCIDR) :=
  let codes := extractCodesFromMetaV0 r.data
  if codes.length = 0 then m
  else
    let cidr : GeoCIDR := ⟨normalizeIP r.ipBytes, r.ones⟩
    codes.foldl (fun acc code => mapAppend acc (lowerB code) cidr) m

/-- metadb.LoadGeoIP over an already-decoded record sequence: collect
    CIDRs per lowercased code, then wrap each entry in a geodat GeoIP whose
    CountryCode is the uppercased code. -/
def metaLoadGeoIP (records : List MetaRecord) : List (List Nat × GeoIPData) :=
  (records.foldl metaStep []).map fun e => (e.1, ⟨upperB e.1, e.2, false⟩)

/-! ## pkg/acl/geoloader.go: file-backed loader -/

/-- FileGeoLoader.LoadGeoIP and LoadGeoSite from geoloader.go.  The load
    runs under sync.Once: with an empty path the closure returns before
    loading, leaving both the cached map and the cached error nil, and
    every later call returns the same cached pair.  The v2geo file parse
    is abstracted as an oracle from the path to a (map, error) pair; the
    model is a pure function of the path, so repeated calls agree by
    construction. -/
def fileLoadGeo {μ ε : Type} (path : List Nat) (load : List Nat → Option μ × Option ε) :
    Option μ × Option ε :=
  if path.length = 0 then (none, none) else load path

/-! ## Rule compiler and ruleset runtime, modelled from the spec

The compiler and the compiled-ruleset runtime (compile.go) are not among
the provided sources; only their tests (compile_test.go) and the README
document them.  The definitions below are modelled from the spec. -/

/-- Protocol: Both, TCP or UDP. -/
inductive Protocol where
  | both : Protocol
  | tcp : Protocol
  | udp : Protocol
deriving DecidableEq

/-- PortMatcher: protocol selector plus inclusive port range, where the
    0-0 range means any port. -/
structure PortMatcher where
  proto : Protocol
  portStart : Nat
  portEnd : Nat

/-- Modelled from the spec: a compiled PortMatcher matches a query iff the
    protocols are compatible (either side Both or equal) and the port is in
    range, the 0-0 range meaning any port (spec section 4.2). -/
def portMatches (pm : PortMatcher) (proto : Protocol) (port : Nat) : Bool :=
  (pm.proto == Protocol.both || proto == Protocol.both || pm.proto == proto) &&
  ((pm.portStart == 0 && pm.portEnd == 0) || (pm.portStart ≤ port && port ≤ pm.portEnd))

/-- Field splitting on a separator byte, as strings.SplitN with unbounded
    count: splitting the empty string gives one empty field. -/
def splitOnB (sep : Nat) : List Nat → List (List Nat)
  | [] => [[]]
  | c :: rest =>
    let r := splitOnB sep rest
    if c == sep then [] :: r
    else (c :: r.headD []) :: r.tail

/-- Modelled from the spec: strconv.ParseUint(s, 10, 16) as used on port
    tokens; digits only, nonempty, value at most 65535. -/
def parsePortNum (s : List Nat) : Option Nat :=
  if s.length = 0 then none
  else if s.all fun b => 48 ≤ b && b ≤ 57 then
    let n := s.foldl (fun a b => a * 10 + (b - 48)) 0
    if n ≤ 65535 then some n else none
  else none

/-- Modelled from the spec: parseProtoPort (compile.go, absent from the
    sources; specified by the table in spec section 4.2 and by
    compile_test.go).  Empty or star means any protocol and any port; the
    protocol token before the slash must be tcp, udp or star; an optional
    slash part is a port or an inclusive port range with start at most
    end, every port within the 16-bit range. -/
def parseProtoPort (s : List Nat) : Protocol × Nat × Nat × Bool :=
  if s == [] || s == [42] then (Protocol.both, 0, 0, true)
  else
    let parts := splitOnB 47 s
    let protoOpt : Option Protocol :=
      if parts.headD [] == strBytes "tcp" then some Protocol.tcp
      else if parts.headD [] == strBytes "udp" then some Protocol.udp
      else if parts.headD [] == [42] then some Protocol.both
      else none
    match protoOpt with
    | none => (Protocol.both, 0, 0, false)
    | some proto =>
      match parts with
      | [_] => (proto, 0, 0, true)
      | [_, portSpec] =>
        match splitOnB 45 portSpec with
        | [p] =>
          match parsePortNum p with
          | some n => (proto, n, n, true)
          | none => (Protocol.both, 0, 0, false)
        | [p1, p2] =>
          match parsePortNum p1, parsePortNum p2 with
          | some a, some b =>
            if a > b then (Protocol.both, 0, 0, false) else (proto, a, b, true)
          | _, _ => (Protocol.both, 0, 0, false)
        | _ => (Protocol.both, 0, 0, false)
      | _ => (Protocol.both, 0, 0, false)

/-- CompiledRule, modelled from the spec: a host matcher, a port matcher,
    the outbound label and the optional hijack address, in source order. -/
structure CompiledRule (O : Type) where
  host : HostInfo → Bool
  port : PortMatcher
  outbound : O
  hijackIP : Option (List Nat)

/-- Modelled from the spec: CompiledRuleSet.Match iterates the rules in
    source order; a rule matches iff its host matcher accepts the host and
    its port matcher accepts the protocol and port; the first match
    supplies the answer and no match yields (none, none).  The LRU cache
    is omitted: the spec states the cache never affects answers. -/
def rulesMatch {O : Type} :
    List (CompiledRule O) → HostInfo → Protocol → Nat → Option O × Option (List Nat)
  | [], _, _, _ => (none, none)
  | r :: rest, h, p, port =>
    if r.host h && portMatches r.port p port then (some r.outbound, r.hijackIP)
    else rulesMatch rest h p port

/-- Compile errors relevant to geo rules (spec section 7). -/
inductive CompileErr where
  | unknownGeoCode : List Nat → CompileErr
  | loaderErr : List Nat → CompileErr
deriving DecidableEq

/-- Association-list lookup standing for Go map indexing. -/
def lookupCode {μ : Type} : List (List Nat × μ) → List Nat → Option μ
  | [], _ => none
  | (k, v) :: rest, c => if k == c then some v else lookupCode rest c

/-- Modelled from the spec: compiling a geoip or geosite rule first runs
    the loader, surfacing its error as a loader error; otherwise the
    lowercased code is looked up in the loaded map (a nil map has no
    entries) and an absent code is the unknown-code error
    (spec sections 4.3 and 7). -/
def resolveGeoRule {μ : Type} (loaded : Option (List (List Nat × μ)) × Option (List Nat))
    (code : List Nat) : Except CompileErr μ :=
  match loaded.2 with
  | some e => Except.error (CompileErr.loaderErr e)
  | none =>
    match lookupCode (loaded.1.getD []) (lowerB code) with
    | some g => Except.ok g
    | none => Except.error (CompileErr.unknownGeoCode code)

/-- Spec-level last address covered by a CIDR entry: each base byte with
    the unmasked low bits set (for a canonical base, base ||| not mask). -/
def cidrEnd (c : IPNet) : List Nat :=
  (List.range c.ip.length).map fun i => c.ip.getD i 0 + (255 - maskByte c.maskOnes i)

/-- Well-formedness of a compiled v4 entry: four base bytes below 256, a
    32-bit mask with at most 32 ones, and a canonical base, unchanged by
    masking. -/
def ipnetWF (c : IPNet) : Prop :=
  c.ip.length = 4 ∧ c.maskBits = 32 ∧ c.maskOnes ≤ 32 ∧
  (∀ b ∈ c.ip, b < 256) ∧
  ∀ i < 4, c.ip.getD i 0 &&& maskByte c.maskOnes i = c.ip.getD i 0

instance ipnetWF_decidable (c : IPNet) : Decidable (ipnetWF c) := by
  unfold ipnetWF
  infer_instance

/-! ## Helper lemmas on the byte utilities -/

theorem asciiLower_of_upper {b : Nat} (h : 65 ≤ b ∧ b ≤ 90) : asciiLower b = b + 32 := by
  unfold asciiLower
  rw [if_pos h]

theorem asciiLower_of_not {b : Nat} (h : ¬(65 ≤ b ∧ b ≤ 90)) : asciiLower b = b := by
  unfold asciiLower
  rw [if_neg h]

theorem asciiUpper_of_lower {b : Nat} (h : 97 ≤ b ∧ b ≤ 122) : asciiUpper b = b - 32 := by
  unfold asciiUpper
  rw [if_pos h]

theorem asciiUpper_of_not {b : Nat} (h : ¬(97 ≤ b ∧ b ≤ 122)) : asciiUpper b = b := by
  unfold asciiUpper
  rw [if_neg h]

theorem asciiLower_idem (b : Nat) : asciiLower (asciiLower b) = asciiLower b := by
  by_cases h : 65 ≤ b ∧ b ≤ 90
  · rw [asciiLower_of_upper h, asciiLower_of_not (by omega)]
  · rw [asciiLower_of_not h, asciiLower_of_not h]

theorem asciiLower_asciiUpper (b : Nat) : asciiLower (asciiUpper b) = asciiLower b := by
  by_cases h : 97 ≤ b ∧ b ≤ 122
  · rw [asciiUpper_of_lower h, asciiLower_of_upper (by omega), asciiLower_of_not (by omega)]
    omega
  · rw [asciiUpper_of_not h]

theorem asciiUpper_asciiLower (b : Nat) : asciiUpper (asciiLower b) = asciiUpper b := by
  by_cases h : 65 ≤ b ∧ b ≤ 90
  · rw [asciiLower_of_upper h, asciiUpper_of_lower (by omega), asciiUpper_of_not (by omega)]
    omega
  · rw [asciiLower_of_not h]

theorem lowerB_idem (s : List Nat) : lowerB (lowerB s) = lowerB s := by
  simp [lowerB, Function.comp, asciiLower_idem]

theorem lowerB_upperB (s : List Nat) : lowerB (upperB s) = lowerB s := by
  simp [lowerB, upperB, Function.comp, asciiLower_asciiUpper]

theorem upperB_lowerB (s : List Nat) : upperB (lowerB s) = upperB s := by
  simp [lowerB, upperB, Function.comp, asciiUpper_asciiLower]

theorem lowerB_eq_self (s : List Nat) (h : ∀ b ∈ s, ¬(65 ≤ b ∧ b ≤ 90)) :
    lowerB s = s := by
  induction s with
  | nil => rfl
  | cons a t ih =>
    have ha := h a (by simp)
    show asciiLower a :: lowerB t = a :: t
    rw [asciiLower_of_not ha, ih fun b hb => h b (by simp [hb])]

/-! ## Claim theorems: empty matcher, loaders, parser -/

/-- C9: a domain Matcher constructed from empty domain and domain-suffix
    lists returns false from Match for every query string, without failing
    (NewMatcher builds the empty succinct set and Match guards it). -/
theorem c9_empty_matcher_matches_nothing (q : List Nat) :
    matcherMatch (NewMatcher [] []) q = false := rfl

/-- C10: FileGeoLoader.LoadGeoIP and LoadGeoSite with an empty path return
    a nil map and a nil error (for any underlying file parser, hence on
    every call of the once-guarded loader), and a geo rule compiled
    against that loader result fails with the unknown-code error rather
    than a loader error, for every code. -/
theorem c10_empty_path_loader {mu : Type}
    (load : List Nat → Option (List (List Nat × mu)) × Option (List Nat))
    (code : List Nat) :
    fileLoadGeo [] load = (none, none) ∧
    resolveGeoRule (fileLoadGeo [] load) code =
      Except.error (CompileErr.unknownGeoCode code) := by
  constructor
  · rfl
  · rfl

/-- C3 (code evaluation at the failing input): the sing-geosite loader maps
    a DomainSuffix item whose raw value is ".google.com" to a RootDomain
    entry whose value still begins with the dot; no dot is stripped. -/
theorem c3_sing_loader_keeps_leading_dot :
    singLoadGeoSite [(strBytes "google", [⟨1, strBytes ".google.com"⟩])] =
      [(strBytes "google",
        ⟨strBytes "google",
         [⟨GeodatDomainType.rootDomain, strBytes ".google.com", []⟩]⟩)] ∧
    startsWithB (strBytes ".google.com") [46] = true := by
  exact ⟨by decide, by decide⟩

/-- C5 counterexample: a geositeMatcher holding the Plain entry google
    matches the lowercase query name but not its uppercase form, so the
    match result for a domain differs from the result for its lowercase
    form on the plain linear-scan path. -/
theorem c5_counterexample :
    ((newGeositeMatcher ⟨strBytes "google",
        [⟨GeodatDomainType.plain, strBytes "google", []⟩]⟩ [] fun _ => none).map
      fun m => (geositeMatch m ⟨strBytes "GOOGLE.COM", none, none⟩,
                geositeMatch m ⟨lowerB (strBytes "GOOGLE.COM"), none, none⟩)) =
      some (false, true) := by
  rfl

/-- C5 amended: on the succinct-trie path, Matcher.Match lowercases the
    query, so for every matcher the result on a domain equals the result
    on its lowercase form and on its uppercase form. -/
theorem c5_trie_casing_amended (m : DomainMatcher) (d : List Nat) :
    matcherMatch m (lowerB d) = matcherMatch m d ∧
    matcherMatch m (upperB d) = matcherMatch m d := by
  unfold matcherMatch matcherHas reverseDomain
  rw [lowerB_idem, lowerB_upperB]
  exact ⟨rfl, rfl⟩

/-- C7 counterexample: a geoip matcher compiled with inverseMatch set
    returns true on the entirely empty HostInfo, so the empty host does
    produce a host match there. -/
theorem c7_counterexample :
    ((newGeoIPMatcher ⟨strBytes "CN", [⟨[10, 0, 0, 0], 8⟩], true⟩).map
      fun m => geoipMatch m ⟨[], none, none⟩) = some true := by
  decide

/-- C2 counterexample: for a country whose sorted CIDR list is
    10.0.0.0/8, 10.1.0.0/16, 10.2.0.0/16, the address 10.3.5.5 is
    contained in a CIDR of the compiled matcher, yet Match returns false:
    the containment-at-midpoint binary search walks past the covering
    prefix. -/
theorem c2_counterexample :
    ((newGeoIPMatcher ⟨strBytes "CN",
        [⟨[10, 0, 0, 0], 8⟩, ⟨[10, 1, 0, 0], 16⟩, ⟨[10, 2, 0, 0], 16⟩], false⟩).map
      fun m => (m.n4.any fun c => ipnetContains c [10, 3, 5, 5],
                geoipMatch m ⟨[], some [10, 3, 5, 5], none⟩)) =
      some (true, false) := by
  decide

/-- Any value accepted by parsePortNum lies within the 16-bit port range. -/
theorem parsePortNum_le {s : List Nat} {n : Nat} (h : parsePortNum s = some n) :
    n ≤ 65535 := by
  unfold parsePortNum at h
  split at h
  · exact absurd h (by simp)
  · split at h
    · dsimp only at h
      split at h
      · injection h with h
        omega
      · exact absurd h (by simp)
    · exact absurd h (by simp)

/-- C6: parseProtoPort returns Both with the any-port range on empty and
    star input, the bare protocols for tcp and udp, the singleton range
    for tcp/443, the range for udp/6881-6889; it rejects an inverted
    range, rejects any protocol token other than tcp, udp and star, and
    accepts only ranges with start at most end within the 16-bit port
    space. -/
theorem c6_parseProtoPort_spec :
    (parseProtoPort [] = (Protocol.both, 0, 0, true)) ∧
    (parseProtoPort (strBytes "*") = (Protocol.both, 0, 0, true)) ∧
    (parseProtoPort (strBytes "tcp") = (Protocol.tcp, 0, 0, true)) ∧
    (parseProtoPort (strBytes "udp") = (Protocol.udp, 0, 0, true)) ∧
    (parseProtoPort (strBytes "tcp/443") = (Protocol.tcp, 443, 443, true)) ∧
    (parseProtoPort (strBytes "udp/6881-6889") = (Protocol.udp, 6881, 6889, true)) ∧
    (parseProtoPort (strBytes "tcp/9000-8000") = (Protocol.both, 0, 0, false)) ∧
    (∀ s, s ≠ [] → (splitOnB 47 s).headD [] ≠ strBytes "tcp" →
      (splitOnB 47 s).headD [] ≠ strBytes "udp" → (splitOnB 47 s).headD [] ≠ [42] →
      (parseProtoPort s).2.2.2 = false) ∧
    (∀ s, (parseProtoPort s).2.2.2 = true →
      (parseProtoPort s).2.1 ≤ (parseProtoPort s).2.2.1 ∧
      (parseProtoPort s).2.2.1 ≤ 65535) := by
  refine ⟨by decide, by decide, by decide, by decide, by decide, by decide, by decide, ?_, ?_⟩
  · intro s h0 h1 h2 h3
    have e0 : (s == ([] : List Nat)) = false := beq_eq_false_iff_ne.mpr h0
    have e42 : (s == [42]) = false := by
      cases hs : s == [42]
      · rfl
      · exact absurd (by rw [eq_of_beq hs]; decide) h3
    have f1 : ((splitOnB 47 s).headD [] == strBytes "tcp") = false :=
      beq_eq_false_iff_ne.mpr h1
    have f2 : ((splitOnB 47 s).headD [] == strBytes "udp") = false :=
      beq_eq_false_iff_ne.mpr h2
    have f3 : ((splitOnB 47 s).headD [] == [42]) = false :=
      beq_eq_false_iff_ne.mpr h3
    unfold parseProtoPort
    simp only [e0, e42, f1, f2, f3, Bool.or_self, Bool.false_eq_true, if_false]
  · intro s
    unfold parseProtoPort
    split
    · intro _
      exact ⟨by decide, by decide⟩
    · dsimp only
      split
      · intro h
        exact absurd h (by simp)
      · split
        · intro _
          exact ⟨Nat.le_refl 0, Nat.zero_le 65535⟩
        · split
          · split
            · rename_i n hn
              intro _
              exact ⟨Nat.le_refl n, parsePortNum_le hn⟩
            · intro h
              exact absurd h (by simp)
          · split
            · rename_i a b ha hb
              split
              · intro h
                exact absurd h (by simp)
              · intro _
                rename_i hab
                exact ⟨show a ≤ b by omega, parsePortNum_le hb⟩
            · intro h
              exact absurd h (by simp)
          · intro h
            exact absurd h (by simp)
        · intro h
          exact absurd h (by simp)

/-- C6 witness: the theorem applied at the concrete inputs icmp (protocol
    rejection) and tcp/443 (range well-formedness). -/
theorem c6_parseProtoPort_spec_witness :
    (parseProtoPort (strBytes "icmp")).2.2.2 = false ∧
    (parseProtoPort (strBytes "tcp/443")).2.1 ≤ (parseProtoPort (strBytes "tcp/443")).2.2.1 := by
  constructor
  · exact c6_parseProtoPort_spec.2.2.2.2.2.2.2.1 (strBytes "icmp")
      (by decide) (by decide) (by decide) (by decide)
  · exact (c6_parseProtoPort_spec.2.2.2.2.2.2.2.2 (strBytes "tcp/443") (by decide)).1

/-- C1: spec-modelled CompiledRuleSet.Match returns the decision of the
    first matching rule: if rule i matches and every earlier rule does
    not, the answer is rule i's outbound and hijack address; in
    particular, when two rules match, the earlier one wins. -/
theorem c1_first_match_wins {O : Type} (rules : List (CompiledRule O)) (h : HostInfo)
    (p : Protocol) (port : Nat) (i : Nat) (hi : i < rules.length)
    (hm : ((rules.get ⟨i, hi⟩).host h && portMatches (rules.get ⟨i, hi⟩).port p port) = true)
    (hfirst : ∀ k, (hk : k < i) →
      ((rules.get ⟨k, Nat.lt_trans hk hi⟩).host h &&
        portMatches (rules.get ⟨k, Nat.lt_trans hk hi⟩).port p port) = false) :
    rulesMatch rules h p port =
      (some (rules.get ⟨i, hi⟩).outbound, (rules.get ⟨i, hi⟩).hijackIP) := by
  induction rules generalizing i with
  | nil => exact absurd hi (by simp)
  | cons r rest ih =>
    cases i with
    | zero =>
      unfold rulesMatch
      rw [show (((r :: rest).get ⟨0, hi⟩).host h &&
            portMatches ((r :: rest).get ⟨0, hi⟩).port p port) = (r.host h && portMatches r.port p port) from rfl] at hm
      rw [hm]
      rfl
    | succ j =>
      unfold rulesMatch
      have h0 : (r.host h && portMatches r.port p port) = false := hfirst 0 (Nat.succ_pos j)
      rw [h0]
      simp only [Bool.false_eq_true, if_false]
      exact ih j (Nat.lt_of_succ_lt_succ hi) hm
        (fun k hk => hfirst (k + 1) (Nat.succ_lt_succ hk))

/-- C1 witness: a two-rule set where only the second rule matches. -/
theorem c1_first_match_wins_witness :
    rulesMatch [⟨fun _ => false, ⟨Protocol.both, 0, 0⟩, (7 : Nat), none⟩,
                ⟨fun _ => true, ⟨Protocol.both, 0, 0⟩, 9, some [127, 0, 0, 1]⟩]
      ⟨strBytes "example.org", none, none⟩ Protocol.tcp 80 = (some 9, some [127, 0, 0, 1]) := by
  have := c1_first_match_wins
    [⟨fun _ => false, ⟨Protocol.both, 0, 0⟩, (7 : Nat), none⟩,
     ⟨fun _ => true, ⟨Protocol.both, 0, 0⟩, 9, some [127, 0, 0, 1]⟩]
    ⟨strBytes "example.org", none, none⟩ Protocol.tcp 80 1 (by decide) rfl
    (fun k hk => by
      have hk0 : k = 0 := by omega
      subst hk0
      rfl)
  exact this

/-- Keys of mapAppend: every key of the updated map satisfies a predicate
    holding on the old keys and on the inserted key. -/
theorem mapAppend_key_pred (P : List Nat → Prop) (k : List Nat) (c : GeoCIDR)
    (m : List (List Nat × List GeoCIDR)) (hm : ∀ e ∈ m, P e.1) (hk : P k) :
    ∀ e ∈ mapAppend m k c, P e.1 := by
  induction m with
  | nil =>
    intro e he
    simp only [mapAppend, List.mem_singleton] at he
    rw [he]
    exact hk
  | cons a rest ih =>
    intro e he
    obtain ⟨k2, v⟩ := a
    unfold mapAppend at he
    split at he
    · rcases List.mem_cons.mp he with h1 | h1
      · rw [h1]
        exact hm (k2, v) (by simp)
      · exact hm e (List.mem_cons_of_mem _ h1)
    · rcases List.mem_cons.mp he with h1 | h1
      · rw [h1]
        exact hm (k2, v) (by simp)
      · exact ih (fun x hx => hm x (List.mem_cons_of_mem _ hx)) e h1

/-- Keys after folding mapAppend over a code list are old keys or
    lowercased codes. -/
theorem foldl_mapAppend_key_pred (P : List Nat → Prop) (cidr : GeoCIDR)
    (codes : List (List Nat)) :
    ∀ m, (∀ e ∈ m, P e.1) → (∀ code, P (lowerB code)) →
      ∀ e ∈ codes.foldl (fun acc code => mapAppend acc (lowerB code) cidr) m, P e.1 := by
  induction codes with
  | nil => exact fun m hm _ e he => hm e he
  | cons c cs ih =>
    intro m hm hlow e he
    exact ih (mapAppend m (lowerB c) cidr)
      (mapAppend_key_pred P (lowerB c) cidr m hm (hlow c)) hlow e he

/-- Keys after one metaStep are old keys or lowercased codes. -/
theorem metaStep_key_pred (P : List Nat → Prop) (m : List (List Nat × List GeoCIDR))
    (r : MetaRecord) (hm : ∀ e ∈ m, P e.1) (hlow : ∀ code, P (lowerB code)) :
    ∀ e ∈ metaStep m r, P e.1 := by
  intro e he
  unfold metaStep at he
  dsimp only at he
  split at he
  · exact hm e he
  · exact foldl_mapAppend_key_pred P _ _ m hm hlow e he

/-- Keys after folding metaStep over the records are old keys or
    lowercased codes. -/
theorem foldl_metaStep_key_pred (P : List Nat → Prop) (records : List MetaRecord) :
    ∀ m, (∀ e ∈ m, P e.1) → (∀ code, P (lowerB code)) →
      ∀ e ∈ records.foldl metaStep m, P e.1 := by
  induction records with
  | nil => exact fun m hm _ e he => hm e he
  | cons r rs ih =>
    intro m hm hlow e he
    exact ih (metaStep m r) (metaStep_key_pred P m r hm hlow) hlow e he

/-- C8: the MetaDB GeoIP loader accepts the country-code payload both as a
    single string and as an array of strings (either form of a record
    yields the same map entry), and in every resulting map entry the key
    is the lowercased code and the stored CountryCode is the uppercased
    key. -/
theorem c8_metadb_code_forms (records : List MetaRecord) :
    (∀ e ∈ metaLoadGeoIP records, lowerB e.1 = e.1 ∧ e.2.countryCode = upperB e.1) ∧
    (∀ ip n c, c ≠ [] →
      metaLoadGeoIP [⟨ip, n, MetaV0Data.str c⟩] =
        [(lowerB c, ⟨upperB c, [⟨normalizeIP ip, n⟩], false⟩)] ∧
      metaLoadGeoIP [⟨ip, n, MetaV0Data.arr [some c]⟩] =
        [(lowerB c, ⟨upperB c, [⟨normalizeIP ip, n⟩], false⟩)]) := by
  constructor
  · intro e he
    unfold metaLoadGeoIP at he
    rw [List.mem_map] at he
    obtain ⟨a, ha, rfl⟩ := he
    have hkey : lowerB a.1 = a.1 :=
      foldl_metaStep_key_pred (fun s => lowerB s = s) records []
        (by simp) (fun code => lowerB_idem code) a ha
    refine ⟨hkey, ?_⟩
    show upperB a.1 = upperB a.1
    rfl
  · intro ip n c hc
    have hlen : c.length ≠ 0 := by
      cases c
      · exact absurd rfl hc
      · simp
    constructor
    · simp [metaLoadGeoIP, metaStep, extractCodesFromMetaV0, mapAppend, hlen, hc, upperB_lowerB]
    · simp [metaLoadGeoIP, metaStep, extractCodesFromMetaV0, mapAppend, hlen, hc, upperB_lowerB]

/-- C8 witness: a single record with code CN as a plain string. -/
theorem c8_metadb_code_forms_witness :
    metaLoadGeoIP [⟨[1, 2, 3, 4], 8, MetaV0Data.str (strBytes "CN")⟩] =
      [(lowerB (strBytes "CN"),
        ⟨upperB (strBytes "CN"), [⟨normalizeIP [1, 2, 3, 4], 8⟩], false⟩)] :=
  ((c8_metadb_code_forms []).2 [1, 2, 3, 4] 8 (strBytes "CN") (by decide)).1

/-! ## The succinct trie built from a single key is a chain; its structure
    and query behaviour admit a closed description, used for claim C4. -/

/-- Label bitmap of the chain trie over a key of length l: one edge-zero
    and node-end-one per consumed byte, then the bare leaf node. -/
def chainBitmap : Nat → List Bool
  | 0 => [true]
  | l + 1 => false :: true :: chainBitmap l

/-- Leaf bitmap of the chain trie: only the final node is a leaf. -/
def chainLeaves : Nat → List Bool
  | 0 => [true]
  | l + 1 => false :: chainLeaves l

/-- The succinct set of the chain trie over key k. -/
def chainSet (k : List Nat) : SuccinctSet :=
  ⟨chainLeaves k.length, chainBitmap k.length, k⟩

theorem beq_succ_succ (e l : Nat) : ((e + 1 : Nat) == l + 1) = (e == l) := by
  by_cases h : e = l
  · subst h
    simp
  · rw [beq_eq_false_iff_ne.mpr h, beq_eq_false_iff_ne.mpr (by omega)]

theorem chainLeaves_getBit (L d : Nat) : getBitL (chainLeaves L) d = (d == L) := by
  induction L generalizing d with
  | zero =>
    cases d with
    | zero => rfl
    | succ e => rfl
  | succ l ih =>
    cases d with
    | zero => rfl
    | succ e =>
      show getBitL (chainLeaves l) e = (e + 1 == l + 1)
      rw [ih e, beq_succ_succ]

theorem chainBitmap_getBit_even (L d : Nat) : getBitL (chainBitmap L) (2 * d) = (d == L) := by
  induction L generalizing d with
  | zero =>
    cases d with
    | zero => rfl
    | succ e =>
      show getBitL [true] (2 * e + 2) = false
      rfl
  | succ l ih =>
    cases d with
    | zero => rfl
    | succ e =>
      show getBitL (false :: true :: chainBitmap l) (2 * e + 2) = (e + 1 == l + 1)
      rw [show getBitL (false :: true :: chainBitmap l) (2 * e + 2) = getBitL (chainBitmap l) (2 * e) from rfl]
      rw [ih e, beq_succ_succ]

theorem chainBitmap_getBit_odd (L d : Nat) :
    getBitL (chainBitmap L) (2 * d + 1) = decide (d < L) := by
  induction L generalizing d with
  | zero =>
    cases d with
    | zero => rfl
    | succ e =>
      show getBitL [true] (2 * e + 3) = decide (e + 1 < 0)
      rfl
  | succ l ih =>
    cases d with
    | zero =>
      show getBitL (false :: true :: chainBitmap l) 1 = decide (0 < l + 1)
      simp [getBitL]
    | succ e =>
      show getBitL (false :: true :: chainBitmap l) (2 * e + 3) = decide (e + 1 < l + 1)
      rw [show getBitL (false :: true :: chainBitmap l) (2 * e + 3) = getBitL (chainBitmap l) (2 * e + 1) from rfl]
      rw [ih e]
      simp [Nat.succ_lt_succ_iff]

theorem chainBitmap_take_count_odd (L d : Nat) (h : d < L) :
    ((chainBitmap L).take (2 * d + 1)).count true = d := by
  induction d generalizing L with
  | zero =>
    cases L with
    | zero => omega
    | succ l => rfl
  | succ e ih =>
    cases L with
    | zero => omega
    | succ l =>
      show ((false :: true :: chainBitmap l).take (2 * e + 3)).count true = e + 1
      rw [show (false :: true :: chainBitmap l).take (2 * e + 3) =
            false :: true :: (chainBitmap l).take (2 * e + 1) from rfl]
      rw [List.count_cons, List.count_cons, ih l (by omega)]
      rfl

theorem chainBitmap_take_count_even (L d : Nat) (h : d < L) :
    ((chainBitmap L).take (2 * d + 2)).count true = d + 1 := by
  induction d generalizing L with
  | zero =>
    cases L with
    | zero => omega
    | succ l => rfl
  | succ e ih =>
    cases L with
    | zero => omega
    | succ l =>
      show ((false :: true :: chainBitmap l).take (2 * e + 4)).count true = e + 2
      rw [show (false :: true :: chainBitmap l).take (2 * e + 4) =
            false :: true :: (chainBitmap l).take (2 * e + 2) from rfl]
      rw [List.count_cons, List.count_cons, ih l (by omega)]
      rfl

theorem countZerosL_chain_odd (L d : Nat) (h : d < L) :
    countZerosL (chainBitmap L) (2 * d + 1) = d + 1 := by
  unfold countZerosL
  rw [chainBitmap_take_count_odd L d h]
  omega

theorem countZerosL_chain_even (L d : Nat) (h : d < L) :
    countZerosL (chainBitmap L) (2 * d + 2) = d + 1 := by
  unfold countZerosL
  rw [chainBitmap_take_count_even L d h]
  omega

theorem selectIthOneL_chain (L d : Nat) (h : d < L) :
    selectIthOneL (chainBitmap L) d = 2 * d + 1 := by
  induction d generalizing L with
  | zero =>
    cases L with
    | zero => omega
    | succ l => rfl
  | succ e ih =>
    cases L with
    | zero => omega
    | succ l =>
      show selectIthOneL (false :: true :: chainBitmap l) (e + 1) = 2 * e + 3
      rw [show selectIthOneL (false :: true :: chainBitmap l) (e + 1) =
            selectIthOneL (chainBitmap l) e + 2 from by
        show (if e + 1 = 0 then 0 else selectIthOneL (chainBitmap l) e + 1) + 1 =
          selectIthOneL (chainBitmap l) e + 2
        rw [if_neg (by omega)]]
      rw [ih l (by omega)]

/-- The BFS construction on a single key produces the chain trie: from
    column col onward, one node per remaining byte plus the leaf node. -/
theorem buildLoop_singleton (k : List Nat) :
    ∀ fuel col, col ≤ k.length → k.length - col < fuel →
      buildLoop [k] fuel [⟨0, 1, col⟩] =
        ⟨chainLeaves (k.length - col), chainBitmap (k.length - col), k.drop col⟩ := by
  intro fuel
  induction fuel with
  | zero =>
    intro col _ h
    omega
  | succ f ih =>
    intro col hcol hfuel
    by_cases hc : col = k.length
    · subst hc
      show buildLoop [k] (f + 1) [⟨0, 1, k.length⟩] = _
      rw [show k.length - k.length = 0 from by omega]
      unfold buildLoop
      dsimp only
      rw [show (([k].getD 0 []).length) = k.length from rfl]
      rw [show (k.length == k.length) = true from by simp]
      rw [show (if true = true then (0 : Nat) + 1 else 0) = 1 from rfl]
      rw [show (1 : Nat) - 1 = 0 from rfl]
      rw [show subGroups [k] k.length 0 1 1 = [] from rfl]
      dsimp only [List.map_nil, List.append_nil, List.nil_append]
      rw [show buildLoop [k] f [] = ⟨[], [], []⟩ from by cases f <;> rfl]
      simp [chainLeaves, chainBitmap, List.drop_eq_nil_of_le (le_refl k.length)]
    · have hlt : col < k.length := by omega
      unfold buildLoop
      dsimp only
      rw [show (([k].getD 0 []).length) = k.length from rfl]
      rw [show (col == k.length) = false from beq_eq_false_iff_ne.mpr hc]
      rw [show (if false = true then (0 : Nat) + 1 else 0) = 0 from rfl]
      rw [show (1 : Nat) - 0 = 1 from rfl]
      rw [show subGroups [k] col 1 0 1 = [(0, 1)] from by
        unfold subGroups
        rw [if_pos (by omega), if_pos (by
          show col < ([k].getD 0 []).length
          exact hlt)]
        rfl]
      dsimp only [List.map_cons, List.map_nil, List.nil_append]
      rw [ih (col + 1) (by omega) (by omega)]
      have hdrop : k.drop col = k[col] :: k.drop (col + 1) := List.drop_eq_getElem_cons hlt
      have hsub : k.length - col = (k.length - (col + 1)) + 1 := by omega
      rw [hsub]
      show SuccinctSet.mk (false :: chainLeaves (k.length - (col + 1)))
          (false :: true :: chainBitmap (k.length - (col + 1)))
          (byteAt [k] 0 col :: k.drop (col + 1)) = _
      rw [show byteAt [k] 0 col = k[col] from by
        unfold byteAt
        exact List.getD_eq_getElem k 0 hlt]
      rw [← hdrop]
      rfl

/-- At the leaf node of the chain the edge scan finds the node-end bit at
    once and fails. -/
theorem scanEdges_chain_end (k : List Nat) (c fuel : Nat) (hf : 1 ≤ fuel) :
    scanEdges (chainSet k) k.length c fuel (2 * k.length) = ScanRes.miss := by
  cases fuel with
  | zero => omega
  | succ f =>
    unfold scanEdges
    rw [show getBitL (chainSet k).labelBitmap (2 * k.length) = true from by
      show getBitL (chainBitmap k.length) (2 * k.length) = true
      rw [chainBitmap_getBit_even]
      simp]
    rfl

/-- Edge scan at an inner chain node: a carriage-return label is an
    immediate hit; a newline label is a hit when the character is a dot
    and the next node is the final leaf; the matching byte yields the
    edge; anything else runs into the node-end bit and fails. -/
theorem scanEdges_chain (k : List Nat) (d c fuel : Nat) (hd : d < k.length) (hf : 2 ≤ fuel) :
    scanEdges (chainSet k) d c fuel (2 * d) =
      (if k.getD d 0 = 13 then ScanRes.hit
       else if k.getD d 0 = 10 ∧ c = 46 ∧ d + 1 = k.length then ScanRes.hit
       else if k.getD d 0 = c then ScanRes.edge (2 * d)
       else ScanRes.miss) := by
  obtain ⟨f, rfl⟩ : ∃ f, fuel = f + 2 := ⟨fuel - 2, by omega⟩
  unfold scanEdges
  rw [show getBitL (chainSet k).labelBitmap (2 * d) = false from by
      show getBitL (chainBitmap k.length) (2 * d) = false
      rw [chainBitmap_getBit_even]
      exact beq_eq_false_iff_ne.mpr (by omega)]
  rw [if_neg (show ¬(false = true) from by decide)]
  rw [if_neg (show ¬(2 * d - d ≥ (chainSet k).labels.length) from by
      show ¬(2 * d - d ≥ k.length)
      omega)]
  dsimp only
  rw [show (chainSet k).labels.getD (2 * d - d) 0 = k.getD d 0 from by
      show k.getD (2 * d - d) 0 = k.getD d 0
      congr 1
      omega]
  rw [show getBitL (chainSet k).leaves
        (countZerosL (chainSet k).labelBitmap (2 * d + 1)) = (d + 1 == k.length) from by
      show getBitL (chainLeaves k.length) (countZerosL (chainBitmap k.length) (2 * d + 1)) =
        (d + 1 == k.length)
      rw [countZerosL_chain_odd k.length d hd]
      exact chainLeaves_getBit k.length (d + 1)]
  by_cases h13 : k.getD d 0 = 13
  · rw [if_pos (show (k.getD d 0 == prefLabel) = true from by rw [h13]; rfl), if_pos h13]
  · rw [if_neg (show ¬((k.getD d 0 == prefLabel) = true) from by
        simpa [prefLabel] using h13), if_neg h13]
    by_cases hroot : k.getD d 0 = 10 ∧ c = 46 ∧ d + 1 = k.length
    · rw [if_pos (show (k.getD d 0 == rootLabel && (c == 46 && (d + 1 == k.length))) = true from by
          rw [hroot.1, hroot.2.1, hroot.2.2]
          simp [rootLabel]), if_pos hroot]
    · rw [if_neg (show ¬((k.getD d 0 == rootLabel && (c == 46 && (d + 1 == k.length))) = true) from by
          intro hcon
          rw [Bool.and_eq_true, Bool.and_eq_true] at hcon
          exact hroot ⟨by simpa [rootLabel] using hcon.1,
            by simpa using hcon.2.1, by simpa using hcon.2.2⟩), if_neg hroot]
      by_cases hbc : k.getD d 0 = c
      · rw [if_pos (show (k.getD d 0 == c) = true from by rw [hbc]; simp), if_pos hbc]
      · rw [if_neg (show ¬((k.getD d 0 == c) = true) from by simpa using hbc), if_neg hbc]
        unfold scanEdges
        rw [show getBitL (chainSet k).labelBitmap (2 * d + 1) = true from by
          show getBitL (chainBitmap k.length) (2 * d + 1) = true
          rw [chainBitmap_getBit_odd]
          simpa using hd]
        rfl

/-- Terminal scan at the final chain node: no edges, no sentinel. -/
theorem scanFinal_chain_end (k : List Nat) (fuel : Nat) :
    scanFinal (chainSet k) k.length fuel (2 * k.length) = false := by
  cases fuel with
  | zero => rfl
  | succ f =>
    unfold scanFinal
    rw [show getBitL (chainSet k).labelBitmap (2 * k.length) = true from by
      show getBitL (chainBitmap k.length) (2 * k.length) = true
      rw [chainBitmap_getBit_even]
      simp]
    rfl

/-- Terminal scan at an inner chain node: succeeds exactly on a sentinel
    edge label. -/
theorem scanFinal_chain (k : List Nat) (d fuel : Nat) (hd : d < k.length) (hf : 2 ≤ fuel) :
    scanFinal (chainSet k) d fuel (2 * d) =
      (k.getD d 0 == 13 || k.getD d 0 == 10) := by
  obtain ⟨f, rfl⟩ : ∃ f, fuel = f + 2 := ⟨fuel - 2, by omega⟩
  unfold scanFinal
  rw [show getBitL (chainSet k).labelBitmap (2 * d) = false from by
      show getBitL (chainBitmap k.length) (2 * d) = false
      rw [chainBitmap_getBit_even]
      exact beq_eq_false_iff_ne.mpr (by omega)]
  rw [if_neg (show ¬(false = true) from by decide)]
  rw [if_neg (show ¬(2 * d - d ≥ (chainSet k).labels.length) from by
      show ¬(2 * d - d ≥ k.length)
      omega)]
  dsimp only
  rw [show (chainSet k).labels.getD (2 * d - d) 0 = k.getD d 0 from by
      show k.getD (2 * d - d) 0 = k.getD d 0
      congr 1
      omega]
  by_cases hsent : (k.getD d 0 == prefLabel || k.getD d 0 == rootLabel) = true
  · rw [if_pos hsent]
    rw [show (k.getD d 0 == 13 || k.getD d 0 == 10) = true from hsent]
  · rw [if_neg hsent]
    rw [show (k.getD d 0 == 13 || k.getD d 0 == 10) = false from by
      cases h : (k.getD d 0 == 13 || k.getD d 0 == 10)
      · rfl
      · exact absurd h hsent]
    unfold scanFinal
    rw [show getBitL (chainSet k).labelBitmap (2 * d + 1) = true from by
      show getBitL (chainBitmap k.length) (2 * d + 1) = true
      rw [chainBitmap_getBit_odd]
      simpa using hd]
    rfl

/-- Closed description of the chain-trie walk: consume matching bytes in
    lockstep; a carriage-return key byte accepts immediately, a newline
    key byte accepts a dot exactly at the end of the key, and an exhausted
    query accepts at the end of the key or on a sentinel byte. -/
def chainMatch : List Nat → List Nat → Bool
  | [], [] => true
  | kh :: _, [] => kh == 13 || kh == 10
  | [], _ :: _ => false
  | kh :: kt, c :: cs =>
    if kh == 13 then true
    else if kh == 10 && (c == 46 && decide (kt = [])) then true
    else if kh == c then chainMatch kt cs
    else false

/-- The has-loop over the chain trie computes chainMatch of the remaining
    key against the remaining query. -/
theorem hasLoop_chain (k : List Nat) (q : List Nat) :
    ∀ d, d ≤ k.length → hasLoop (chainSet k) q d (2 * d) = chainMatch (k.drop d) q := by
  induction q with
  | nil =>
    intro d hd
    unfold hasLoop
    by_cases hdl : d = k.length
    · subst hdl
      rw [show getBitL (chainSet k).leaves k.length = true from by
        show getBitL (chainLeaves k.length) k.length = true
        rw [chainLeaves_getBit]
        simp]
      rw [List.drop_eq_nil_of_le (le_refl k.length)]
      rfl
    · have hlt : d < k.length := by omega
      rw [show getBitL (chainSet k).leaves d = false from by
        show getBitL (chainLeaves k.length) d = false
        rw [chainLeaves_getBit]
        exact beq_eq_false_iff_ne.mpr hdl]
      rw [if_neg (show ¬(false = true) from by decide)]
      rw [scanFinal_chain k d (scanFuel (chainSet k) d (2 * d)) hlt (by
        show 2 ≤ (chainSet k).labels.length + d + 1 - 2 * d
        show 2 ≤ k.length + d + 1 - 2 * d
        omega)]
      rw [List.drop_eq_getElem_cons hlt]
      rw [show k.getD d 0 = k[d] from List.getD_eq_getElem k 0 hlt]
      rfl
  | cons c cs ih =>
    intro d hd
    unfold hasLoop
    by_cases hdl : d = k.length
    · subst hdl
      rw [scanEdges_chain_end k c (scanFuel (chainSet k) k.length (2 * k.length)) (by
        show 1 ≤ (chainSet k).labels.length + k.length + 1 - 2 * k.length
        show 1 ≤ k.length + k.length + 1 - 2 * k.length
        omega)]
      rw [List.drop_eq_nil_of_le (le_refl k.length)]
      rfl
    · have hlt : d < k.length := by omega
      rw [scanEdges_chain k d c (scanFuel (chainSet k) d (2 * d)) hlt (by
        show 2 ≤ (chainSet k).labels.length + d + 1 - 2 * d
        show 2 ≤ k.length + d + 1 - 2 * d
        omega)]
      rw [List.drop_eq_getElem_cons hlt]
      have hgd : k.getD d 0 = k[d] := List.getD_eq_getElem k 0 hlt
      by_cases h13 : k.getD d 0 = 13
      · rw [if_pos h13]
        rw [show chainMatch (k[d] :: k.drop (d + 1)) (c :: cs) = true from by
          simp only [chainMatch]
          rw [if_pos (show (k[d] == 13) = true from by rw [← hgd, h13]; rfl)]]
      · rw [if_neg h13]
        by_cases hroot : k.getD d 0 = 10 ∧ c = 46 ∧ d + 1 = k.length
        · rw [if_pos hroot]
          rw [show chainMatch (k[d] :: k.drop (d + 1)) (c :: cs) = true from by
            simp only [chainMatch]
            rw [if_neg (show ¬((k[d] == 13) = true) from by
              rw [← hgd]
              simpa using h13)]
            rw [if_pos (show (k[d] == 10 && (c == 46 && decide (k.drop (d + 1) = []))) = true from by
              rw [← hgd, hroot.1, hroot.2.1]
              have : k.drop (d + 1) = [] := List.drop_eq_nil_of_le (by omega)
              simp [this])]]
        · rw [if_neg hroot]
          by_cases hbc : k.getD d 0 = c
          · rw [if_pos hbc]
            dsimp only
            rw [show countZerosL (chainSet k).labelBitmap (2 * d + 1) = d + 1 from
              countZerosL_chain_odd k.length d hlt]
            rw [if_neg (show ¬(d + 1 = 0) from by omega)]
            rw [show selectIthOneL (chainSet k).labelBitmap (d + 1 - 1) = 2 * d + 1 from by
              show selectIthOneL (chainBitmap k.length) (d + 1 - 1) = 2 * d + 1
              rw [show d + 1 - 1 = d from rfl]
              exact selectIthOneL_chain k.length d hlt]
            rw [show 2 * d + 1 + 1 = 2 * (d + 1) from by omega]
            rw [ih (d + 1) (by omega)]
            rw [show chainMatch (k[d] :: k.drop (d + 1)) (c :: cs) =
                chainMatch (k.drop (d + 1)) cs from by
              simp only [chainMatch]
              rw [if_neg (show ¬((k[d] == 13) = true) from by rw [← hgd]; simpa using h13)]
              rw [if_neg (show ¬((k[d] == 10 && (c == 46 && decide (k.drop (d + 1) = []))) = true) from by
                intro hcon
                rw [Bool.and_eq_true, Bool.and_eq_true] at hcon
                have e10 : k.getD d 0 = 10 := by rw [hgd]; simpa using hcon.1
                have e46 : c = 46 := by simpa using hcon.2.1
                have edrop : k.drop (d + 1) = [] := by simpa using hcon.2.2
                have : d + 1 = k.length := by
                  have := List.drop_eq_nil_iff.mp edrop
                  omega
                exact hroot ⟨e10, e46, this⟩)]
              rw [if_pos (show (k[d] == c) = true from by rw [← hgd, hbc]; simp)]]
          · rw [if_neg hbc]
            rw [show chainMatch (k[d] :: k.drop (d + 1)) (c :: cs) = false from by
              simp only [chainMatch]
              rw [if_neg (show ¬((k[d] == 13) = true) from by rw [← hgd]; simpa using h13)]
              rw [if_neg (show ¬((k[d] == 10 && (c == 46 && decide (k.drop (d + 1) = []))) = true) from by
                intro hcon
                rw [Bool.and_eq_true, Bool.and_eq_true] at hcon
                have e10 : k.getD d 0 = 10 := by rw [hgd]; simpa using hcon.1
                have e46 : c = 46 := by simpa using hcon.2.1
                have edrop : k.drop (d + 1) = [] := by simpa using hcon.2.2
                have : d + 1 = k.length := by
                  have := List.drop_eq_nil_iff.mp edrop
                  omega
                exact hroot ⟨e10, e46, this⟩)]
              rw [if_neg (show ¬((k[d] == c) = true) from by rw [← hgd]; simpa using hbc)]]

/-- Bytewise list equality is invariant under reversal. -/
theorem reverse_beq (a b : List Nat) : (a.reverse == b.reverse) = (a == b) := by
  by_cases h : a = b
  · rw [h]
    simp
  · rw [beq_eq_false_iff_ne.mpr h,
      beq_eq_false_iff_ne.mpr (fun hr => h (List.reverse_inj.mp hr))]

/-- chainMatch of a reversed root key against a reversed query is exact
    equality or extension across a dot: the dot-boundary property of the
    chain trie, provided neither string carries a sentinel byte. -/
theorem chainMatch_spec (w1 : List Nat) :
    ∀ u1 : List Nat, (∀ b ∈ w1, b ≠ 10 ∧ b ≠ 13) → (∀ b ∈ u1, b ≠ 10) →
      chainMatch (w1 ++ [10]) u1 = (u1 == w1 || startsWithB u1 (w1 ++ [46])) := by
  induction w1 with
  | nil =>
    intro u1 _ hu
    cases u1 with
    | nil => rfl
    | cons c cs =>
      have hc : c ≠ 10 := hu c (by simp)
      show chainMatch [10] (c :: cs) = _
      simp only [chainMatch]
      rw [if_neg (show ¬(((10 : Nat) == 13) = true) from by decide)]
      by_cases h46 : c = 46
      · rw [if_pos (show ((10 : Nat) == 10 && (c == 46 && decide True)) = true from by
          rw [h46]
          decide)]
        rw [show ((c :: cs : List Nat) == []) = false from rfl]
        rw [show startsWithB (c :: cs) ([] ++ [46]) = (c == 46 && startsWithB cs []) from rfl]
        rw [show (c == 46) = true from by rw [h46]; decide]
        rw [show startsWithB cs [] = true from by cases cs <;> rfl]
        rfl
      · rw [if_neg (show ¬(((10 : Nat) == 10 && (c == 46 && decide True)) = true) from by
          intro hcon
          rw [Bool.and_eq_true, Bool.and_eq_true] at hcon
          exact h46 (by simpa using hcon.2.1))]
        rw [if_neg (show ¬(((10 : Nat) == c) = true) from by simpa using (Ne.symm hc))]
        rw [show ((c :: cs : List Nat) == []) = false from rfl]
        rw [show startsWithB (c :: cs) ([] ++ [46]) = (c == 46 && startsWithB cs []) from rfl]
        rw [beq_eq_false_iff_ne.mpr h46]
        rfl
  | cons b wt ih =>
    intro u1 hw hu
    have hb := hw b (by simp)
    cases u1 with
    | nil =>
      show chainMatch (b :: (wt ++ [10])) [] = _
      simp only [chainMatch]
      rw [beq_eq_false_iff_ne.mpr hb.2, beq_eq_false_iff_ne.mpr hb.1]
      rfl
    | cons c cs =>
      show chainMatch (b :: (wt ++ [10])) (c :: cs) = _
      simp only [chainMatch]
      rw [if_neg (show ¬((b == 13) = true) from by simpa using hb.2)]
      rw [if_neg (show ¬((b == 10 && (c == 46 && decide (wt ++ [10] = []))) = true) from by
        intro hcon
        rw [Bool.and_eq_true] at hcon
        exact absurd (by simpa using hcon.1) hb.1)]
      by_cases hbc : b = c
      · rw [if_pos (show (b == c) = true from by rw [hbc]; simp)]
        rw [ih cs (fun x hx => hw x (by simp [hx])) (fun x hx => hu x (by simp [hx]))]
        rw [show ((c :: cs : List Nat) == b :: wt) = (c == b && cs == wt) from rfl]
        rw [show startsWithB (c :: cs) ((b :: wt) ++ [46]) =
              (c == b && startsWithB cs (wt ++ [46])) from rfl]
        rw [show (c == b) = true from by rw [hbc]; simp]
        simp
      · rw [if_neg (show ¬((b == c) = true) from by simpa using hbc)]
        rw [show ((c :: cs : List Nat) == b :: wt) = (c == b && cs == wt) from rfl]
        rw [show startsWithB (c :: cs) ((b :: wt) ++ [46]) =
              (c == b && startsWithB cs (wt ++ [46])) from rfl]
        rw [show (c == b) = false from beq_eq_false_iff_ne.mpr (Ne.symm hbc)]
        rfl

theorem chainBitmap_length (L : Nat) : (chainBitmap L).length = 2 * L + 1 := by
  induction L with
  | zero => rfl
  | succ l ih =>
    show (false :: true :: chainBitmap l).length = 2 * (l + 1) + 1
    simp [ih]
    omega

theorem chainSet_labelBitmap (k : List Nat) : (chainSet k).labelBitmap = chainBitmap k.length := rfl

theorem chainSet_labels (k : List Nat) : (chainSet k).labels = k := rfl

/-- C4: a RootDomain rule value v without leading dot matches a query q
    exactly when q equals v or q extends v across a dot boundary, both on
    the succinct-trie fast path (the matcher built from the single suffix
    entry v) and on the attribute-aware linear-scan path, for lowercase
    sentinel-free byte strings. -/
theorem c4_root_domain_boundary (v q : List Nat)
    (hv : ∀ b ∈ v, b ≠ 10 ∧ b ≠ 13 ∧ ¬(65 ≤ b ∧ b ≤ 90))
    (hq : ∀ b ∈ q, b ≠ 10 ∧ b ≠ 13 ∧ ¬(65 ≤ b ∧ b ≤ 90))
    (hdot : startsWithB v [46] = false) :
    matcherMatch (NewMatcher [] [v]) q = (q == v || hasSuffixB q (46 :: v)) ∧
    (∀ (m : GeositeMatcher) (d : GeositeDomain), d.dtype = GeositeDomainType.root →
      d.value = v → attrsCheck m.attrs d.attrs = true →
      matchDomainWithAttrs m d ⟨q, none, none⟩ = (q == v || hasSuffixB q (46 :: v))) := by
  have lv : lowerB v = v := lowerB_eq_self v fun b hb => (hv b hb).2.2
  have lq : lowerB q = q := lowerB_eq_self q fun b hb => (hq b hb).2.2
  constructor
  · have hnm : NewMatcher [] [v] = ⟨newSuccinctSet [suffixKey (lowerB v)]⟩ := rfl
    have hkey : suffixKey v = v.reverse ++ [10] := by
      unfold suffixKey
      rw [hdot]
      rw [if_neg (show ¬(false = true) from by decide)]
      show (10 :: v).reverse = v.reverse ++ [10]
      rw [List.reverse_cons]
    have hset : newSuccinctSet [v.reverse ++ [10]] = chainSet (v.reverse ++ [10]) := by
      unfold newSuccinctSet
      rw [if_neg (show ¬([v.reverse ++ [10]].length = 0) from by simp)]
      show buildLoop [v.reverse ++ [10]] (buildFuel [v.reverse ++ [10]]) [⟨0, 1, 0⟩] =
        chainSet (v.reverse ++ [10])
      rw [buildLoop_singleton (v.reverse ++ [10]) (buildFuel [v.reverse ++ [10]]) 0
        (Nat.zero_le _)
        (by
          show (v.reverse ++ [10]).length - 0 < 2 + (0 + (v.reverse ++ [10]).length + 1)
          omega)]
      rw [Nat.sub_zero, List.drop_zero]
      rfl
    rw [hnm, lv, hkey, hset]
    unfold matcherMatch
    rw [if_neg (show ¬((chainSet (v.reverse ++ [10])).labels.length = 0) from by
      show ¬((v.reverse ++ [10]).length = 0)
      simp)]
    unfold matcherHas
    rw [if_neg (show ¬(((chainSet (v.reverse ++ [10])).labelBitmap.length = 0 ||
        (chainSet (v.reverse ++ [10])).labels.length = 0) = true) from by
      intro hcon
      rw [Bool.or_eq_true, decide_eq_true_iff, decide_eq_true_iff] at hcon
      rcases hcon with h1 | h1
      · rw [chainSet_labelBitmap, chainBitmap_length] at h1
        omega
      · rw [chainSet_labels] at h1
        simp at h1)]
    rw [lq]
    rw [show reverseDomain q = q.reverse from rfl]
    have hchain := hasLoop_chain (v.reverse ++ [10]) q.reverse 0 (Nat.zero_le _)
    rw [show (2 * 0 : Nat) = 0 from rfl] at hchain
    rw [hchain, List.drop_zero]
    rw [chainMatch_spec v.reverse q.reverse
      (fun b hb => ⟨(hv b (List.mem_reverse.mp hb)).1, (hv b (List.mem_reverse.mp hb)).2.1⟩)
      (fun b hb => (hq b (List.mem_reverse.mp hb)).1)]
    rw [reverse_beq]
    rw [show hasSuffixB q (46 :: v) = startsWithB q.reverse (v.reverse ++ [46]) from by
      unfold hasSuffixB
      rw [List.reverse_cons]]
  · intro m d hroot hval hattrs
    unfold matchDomainWithAttrs
    rw [hattrs, if_pos rfl, hroot, hval]

/-- C4 witness: the boundary property at google.com for the subdomain
    query www.google.com and on the linear path for fakegoogle.com. -/
theorem c4_root_domain_boundary_witness :
    matcherMatch (NewMatcher [] [strBytes "google.com"]) (strBytes "www.google.com") =
      (strBytes "www.google.com" == strBytes "google.com" ||
       hasSuffixB (strBytes "www.google.com") (46 :: strBytes "google.com")) ∧
    matcherMatch (NewMatcher [] [strBytes "google.com"]) (strBytes "fakegoogle.com") =
      (strBytes "fakegoogle.com" == strBytes "google.com" ||
       hasSuffixB (strBytes "fakegoogle.com") (46 :: strBytes "google.com")) :=
  ⟨(c4_root_domain_boundary (strBytes "google.com") (strBytes "www.google.com")
      (by decide) (by decide) (by decide)).1,
   (c4_root_domain_boundary (strBytes "google.com") (strBytes "fakegoogle.com")
      (by decide) (by decide) (by decide)).1⟩

/-! ## Structure of the trie root node, for the empty-query analysis of C7 -/

theorem runEnd_ge (keys : List (List Nat)) (col b : Nat) :
    ∀ fuel j, j ≤ runEnd keys col b fuel j := by
  intro fuel
  induction fuel with
  | zero => intro j; exact Nat.le_refl j
  | succ f ih =>
    intro j
    unfold runEnd
    split
    · exact Nat.le_trans (Nat.le_succ j) (ih (j + 1))
    · exact Nat.le_refl j

/-- Every group delivered by subGroups starts inside the scanned range, at
    a key that still has a byte in the current column. -/
theorem subGroups_start (keys : List (List Nat)) (col : Nat) :
    ∀ fuel j e p, p ∈ subGroups keys col fuel j e →
      j ≤ p.1 ∧ p.1 < e ∧ col < (keys.getD p.1 []).length := by
  intro fuel
  induction fuel with
  | zero =>
    intro j e p hp
    exact absurd hp (by simp [subGroups])
  | succ f ih =>
    intro j e p hp
    unfold subGroups at hp
    split at hp
    · split at hp
      · rcases List.mem_cons.mp hp with h1 | h1
        · subst h1
          exact ⟨Nat.le_refl j, by omega, by assumption⟩
        · have := ih _ e p h1
          have hge : j + 1 ≤ runEnd keys col (byteAt keys j col) (e - (j + 1)) (j + 1) :=
            runEnd_ge keys col _ _ (j + 1)
          exact ⟨by omega, this.2.1, this.2.2⟩
      · have := ih (j + 1) e p hp
        exact ⟨by omega, this.2.1, this.2.2⟩
    · exact absurd hp (by simp)

theorem getD_false_map {α : Type} (gs : List α) (rest : List Bool) :
    ∀ i, i < gs.length → ((gs.map fun _ => false) ++ rest).getD i false = false := by
  induction gs with
  | nil =>
    intro i hi
    exact absurd hi (by simp)
  | cons g gt ih =>
    intro i hi
    cases i with
    | zero => rfl
    | succ j => exact ih j (by simpa using hi)

theorem getD_map_false_end {α : Type} (gs : List α) (b : Bool) (rest : List Bool) :
    ((gs.map fun _ => false) ++ b :: rest).getD gs.length false = b := by
  induction gs with
  | nil => rfl
  | cons g gt ih => exact ih

/-- The terminal scan over a run of edge bits whose labels are not
    sentinels fails when it reaches the node-end bit. -/
theorem scanFinal_prefix (st : SuccinctSet) (r0 : Nat)
    (hbm : ∀ i, i < r0 → getBitL st.labelBitmap i = false)
    (hend : getBitL st.labelBitmap r0 = true)
    (hlab : ∀ i, i < r0 → st.labels.getD i 0 ≠ 13 ∧ st.labels.getD i 0 ≠ 10) :
    ∀ fuel i, i ≤ r0 → scanFinal st 0 fuel i = false := by
  intro fuel
  induction fuel with
  | zero => intro i _; rfl
  | succ f ih =>
    intro i hi
    unfold scanFinal
    by_cases hir : i = r0
    · subst hir
      rw [hend]
      rfl
    · have hilt : i < r0 := by omega
      rw [hbm i hilt]
      rw [if_neg (show ¬(false = true) from by decide)]
      by_cases hlen : i - 0 ≥ st.labels.length
      · rw [if_pos hlen]
      · rw [if_neg hlen]
        dsimp only
        have hl := hlab i hilt
        rw [if_neg (show ¬((st.labels.getD (i - 0) 0 == prefLabel ||
            st.labels.getD (i - 0) 0 == rootLabel) = true) from by
          intro hcon
          rw [Bool.or_eq_true] at hcon
          rcases hcon with h1 | h1
          · exact hl.1 (by simpa [prefLabel] using h1)
          · exact hl.2 (by simpa [rootLabel]  using h1))]
        exact ih (i + 1) (by omega)

/-- The trie built from nonempty keys whose first bytes are not sentinels
    rejects the empty query: the root is not a leaf and the terminal scan
    over the root edges finds no sentinel. -/
theorem hasLoop_empty_query (keys : List (List Nat)) (hn : keys ≠ [])
    (hne : ∀ k ∈ keys, k ≠ [])
    (hhead : ∀ k ∈ keys, k.getD 0 0 ≠ 10 ∧ k.getD 0 0 ≠ 13) :
    hasLoop (newSuccinctSet keys) [] 0 0 = false := by
  have hlen : 0 < keys.length := List.length_pos.mpr hn
  have hk0 : keys.getD 0 [] ∈ keys := by
    rw [List.getD_eq_getElem keys [] hlen]
    exact List.getElem_mem hlen
  have hk0ne : (keys.getD 0 []).length ≠ 0 := by
    intro hcon
    exact hne _ hk0 (List.length_eq_zero.mp hcon)
  obtain ⟨f, hf⟩ : ∃ f, buildFuel keys = f + 1 :=
    ⟨buildFuel keys - 1, by unfold buildFuel; omega⟩
  have hset : newSuccinctSet keys =
      buildLoop keys (f + 1) [⟨0, keys.length, 0⟩] := by
    unfold newSuccinctSet
    rw [if_neg (by omega), hf]
  rw [hset]
  unfold buildLoop
  dsimp only
  rw [show ((0 : Nat) == (keys.getD 0 []).length) = false from
    beq_eq_false_iff_ne.mpr (fun hcon => hk0ne hcon.symm)]
  rw [show (if false = true then (0 : Nat) + 1 else 0) = 0 from rfl]
  unfold hasLoop
  rw [show getBitL
      ((buildLoop keys f
        ([] ++ List.map (fun g => QElt.mk g.1 g.2 (0 + 1))
          (subGroups keys 0 (keys.length - 0) 0 keys.length))).leaves.cons false) 0 = false from rfl]
  rw [if_neg (show ¬(false = true) from by decide)]
  refine scanFinal_prefix _ (subGroups keys 0 (keys.length - 0) 0 keys.length).length ?_ ?_ ?_ _ 0
    (Nat.zero_le _)
  · intro i hi
    show ((List.map (fun _ => false) (subGroups keys 0 (keys.length - 0) 0 keys.length)) ++
        true :: _).getD i false = false
    exact getD_false_map _ _ i (by simpa using hi)
  · show ((List.map (fun _ => false) (subGroups keys 0 (keys.length - 0) 0 keys.length)) ++
        true :: _).getD (subGroups keys 0 (keys.length - 0) 0 keys.length).length false = true
    exact getD_map_false_end (subGroups keys 0 (keys.length - 0) 0 keys.length) true _
  · intro i hi
    have hmaplen : i < (List.map (fun g => byteAt keys g.1 0)
        (subGroups keys 0 (keys.length - 0) 0 keys.length)).length := by
      simpa using hi
    show ((List.map (fun g => byteAt keys g.1 0) (subGroups keys 0 (keys.length - 0) 0 keys.length)) ++
        _).getD i 0 ≠ 13 ∧ _ ≠ 10
    rw [List.getD_append _ _ _ i hmaplen]
    have hxmem : (List.map (fun g => byteAt keys g.1 0)
        (subGroups keys 0 (keys.length - 0) 0 keys.length)).getD i 0 ∈
        List.map (fun g => byteAt keys g.1 0) (subGroups keys 0 (keys.length - 0) 0 keys.length) := by
      rw [List.getD_eq_getElem _ 0 hmaplen]
      exact List.getElem_mem hmaplen
    rw [List.mem_map] at hxmem
    obtain ⟨g, hg, hval⟩ := hxmem
    have hb := subGroups_start keys 0 _ 0 keys.length g hg
    have hkey : keys.getD g.1 [] ∈ keys := by
      rw [List.getD_eq_getElem keys [] hb.2.1]
      exact List.getElem_mem hb.2.1
    have hhb := hhead _ hkey
    rw [← hval]
    exact ⟨hhb.2, hhb.1⟩

theorem insertByLe_mem {α : Type} (le : α → α → Bool) (y : α) (l : List α) (x : α) :
    x ∈ insertByLe le y l ↔ x = y ∨ x ∈ l := by
  induction l with
  | nil => simp [insertByLe]
  | cons a t ih =>
    unfold insertByLe
    split
    · simp [List.mem_cons]
    · simp only [List.mem_cons, ih]
      tauto

theorem sortByLe_mem {α : Type} (le : α → α → Bool) (l : List α) (x : α) :
    x ∈ sortByLe le l ↔ x ∈ l := by
  induction l with
  | nil => simp [sortByLe]
  | cons a t ih =>
    show x ∈ insertByLe le a (sortByLe le t) ↔ x ∈ a :: t
    rw [insertByLe_mem, ih, List.mem_cons]

theorem dedupKeys_mem (f : List Nat → List Nat) :
    ∀ (l seen : List (List Nat)) (x : List Nat),
      x ∈ (dedupKeys f seen l).2 → ∃ d ∈ l, x = f (lowerB d) := by
  intro l
  induction l with
  | nil =>
    intro seen x hx
    exact absurd hx (by simp [dedupKeys])
  | cons d ds ih =>
    intro seen x hx
    unfold dedupKeys at hx
    dsimp only at hx
    split at hx
    · obtain ⟨e, he, hex⟩ := ih seen x hx
      exact ⟨e, by simp [he], hex⟩
    · rcases List.mem_cons.mp hx with h1 | h1
      · exact ⟨d, by simp, h1⟩
      · obtain ⟨e, he, hex⟩ := ih (lowerB d :: seen) x h1
        exact ⟨e, by simp [he], hex⟩

theorem lowerB_sentinel_free (w : List Nat) (hb : ∀ b ∈ w, b ≠ 10 ∧ b ≠ 13) :
    ∀ b ∈ lowerB w, b ≠ 10 ∧ b ≠ 13 := by
  intro b hbm
  rw [lowerB, List.mem_map] at hbm
  obtain ⟨a, ha, rfl⟩ := hbm
  obtain ⟨h1, h2⟩ := hb a ha
  constructor
  · intro hcon
    unfold asciiLower at hcon
    split at hcon <;> omega
  · intro hcon
    unfold asciiLower at hcon
    split at hcon <;> omega

/-- A reversed nonempty sentinel-free word, with or without a trailing
    sentinel, is a nonempty key whose head is not a sentinel. -/
theorem reverse_key_head (w : List Nat) (hw : w ≠ []) (hb : ∀ b ∈ w, b ≠ 10 ∧ b ≠ 13) :
    ∀ t : List Nat, (w.reverse ++ t) ≠ [] ∧
      (w.reverse ++ t).getD 0 0 ≠ 10 ∧ (w.reverse ++ t).getD 0 0 ≠ 13 := by
  intro t
  have hrev : w.reverse ≠ [] := by
    intro hcon
    exact hw (by simpa using congrArg List.reverse hcon)
  obtain ⟨c, rest, hcr⟩ : ∃ c rest, w.reverse = c :: rest := by
    cases hx : w.reverse with
    | nil => exact absurd hx hrev
    | cons c rest => exact ⟨c, rest, rfl⟩
  have hc : c ∈ w := List.mem_reverse.mp (by rw [hcr]; simp)
  rw [hcr]
  refine ⟨by simp, ?_, ?_⟩
  · show ((c :: rest) ++ t).getD 0 0 ≠ 10
    rw [show ((c :: rest) ++ t).getD 0 0 = c from rfl]
    exact (hb c hc).1
  · show ((c :: rest) ++ t).getD 0 0 ≠ 13
    rw [show ((c :: rest) ++ t).getD 0 0 = c from rfl]
    exact (hb c hc).2

/-- The domain matcher built from nonempty sentinel-free full and root
    values rejects the empty query. -/
theorem matcherMatch_empty_name (fulls roots : List (List Nat))
    (hf : ∀ v ∈ fulls, v ≠ [] ∧ ∀ b ∈ v, b ≠ 10 ∧ b ≠ 13)
    (hr : ∀ v ∈ roots, v ≠ [] ∧ ∀ b ∈ v, b ≠ 10 ∧ b ≠ 13) :
    matcherMatch (NewMatcher fulls roots) [] = false := by
  have hkeyprop : ∀ x ∈ (dedupKeys suffixKey [] roots).2 ++
      (dedupKeys reverseDomain (dedupKeys suffixKey [] roots).1 fulls).2,
      x ≠ [] ∧ x.getD 0 0 ≠ 10 ∧ x.getD 0 0 ≠ 13 := by
    intro x hx
    rcases List.mem_append.mp hx with h1 | h1
    · obtain ⟨d, hd, rfl⟩ := dedupKeys_mem suffixKey roots [] x h1
      have hdp := hr d hd
      have hwne : lowerB d ≠ [] := by
        intro hcon
        exact hdp.1 (by simpa [lowerB] using hcon)
      have hwb := lowerB_sentinel_free d hdp.2
      unfold suffixKey
      split
      · rw [show reverseDomain (prefLabel :: lowerB d) = (lowerB d).reverse ++ [prefLabel] from by
          show (prefLabel :: lowerB d).reverse = _
          rw [List.reverse_cons]]
        exact reverse_key_head (lowerB d) hwne hwb [prefLabel]
      · rw [show reverseDomain (rootLabel :: lowerB d) = (lowerB d).reverse ++ [rootLabel] from by
          show (rootLabel :: lowerB d).reverse = _
          rw [List.reverse_cons]]
        exact reverse_key_head (lowerB d) hwne hwb [rootLabel]
    · obtain ⟨d, hd, rfl⟩ := dedupKeys_mem reverseDomain fulls _ x h1
      have hdp := hf d hd
      have hwne : lowerB d ≠ [] := by
        intro hcon
        exact hdp.1 (by simpa [lowerB] using hcon)
      have hwb := lowerB_sentinel_free d hdp.2
      rw [show reverseDomain (lowerB d) = (lowerB d).reverse ++ [] from by
        show (lowerB d).reverse = (lowerB d).reverse ++ []
        simp]
      exact reverse_key_head (lowerB d) hwne hwb []
  unfold NewMatcher
  split
  · rfl
  · dsimp only
    by_cases hkeys : sortByLe lexLeB ((dedupKeys suffixKey [] roots).2 ++
        (dedupKeys reverseDomain (dedupKeys suffixKey [] roots).1 fulls).2) = []
    · rw [hkeys]
      rfl
    · have hprop : ∀ k ∈ sortByLe lexLeB ((dedupKeys suffixKey [] roots).2 ++
          (dedupKeys reverseDomain (dedupKeys suffixKey [] roots).1 fulls).2),
          k ≠ [] ∧ k.getD 0 0 ≠ 10 ∧ k.getD 0 0 ≠ 13 := by
        intro k hk
        exact hkeyprop k ((sortByLe_mem lexLeB _ k).mp hk)
      have hloop := hasLoop_empty_query _ hkeys
        (fun k hk => (hprop k hk).1)
        (fun k hk => ⟨(hprop k hk).2.1, (hprop k hk).2.2⟩)
      unfold matcherMatch
      split
      · rfl
      · unfold matcherHas
        split
        · rfl
        · show hasLoop (newSuccinctSet _) (reverseDomain (lowerB [])) 0 0 = false
          exact hloop

/-- Classification of a Full/RootDomain-only entry list: no plain or regex
    buckets, and every bucketed value comes from an entry of the list. -/
theorem gsClassify_full_root (attrs : List (List Nat))
    (oracle : List Nat → Option (List Nat → Bool)) :
    ∀ lst : List GeodatDomain,
      (∀ d ∈ lst, d.dtype = GeodatDomainType.full ∨ d.dtype = GeodatDomainType.rootDomain) →
      ∃ acc, gsClassify attrs oracle lst = some acc ∧
        acc.plainDomains = [] ∧ acc.regexDomains = [] ∧
        (∀ v ∈ acc.fullDomains, ∃ d ∈ lst, v = d.value) ∧
        (∀ v ∈ acc.rootDomains, ∃ d ∈ lst, v = d.value) ∧
        (∀ g ∈ acc.attrDomains,
          (g.dtype = GeositeDomainType.full ∨ g.dtype = GeositeDomainType.root) ∧
          ∃ d ∈ lst, g.value = d.value) := by
  intro lst
  induction lst with
  | nil =>
    intro _
    exact ⟨⟨[], [], [], [], []⟩, rfl, rfl, rfl, by simp, by simp, by simp⟩
  | cons d ds ih =>
    intro hty
    obtain ⟨acc, hacc, hp, hre, hfull, hroot, hattr⟩ := ih fun x hx => hty x (by simp [hx])
    rcases hty d (by simp) with hd | hd
    · simp only [gsClassify, hacc, Option.bind_eq_bind, Option.some_bind, hd]
      by_cases hcond : ((if attrs.length > 0 then
            (if d.attrKeys.length = 0 then false else attrs.all fun a => d.attrKeys.contains a)
          else true) &&
          (decide (d.attrKeys.length = 0) || !decide (attrs.length > 0))) = true
      · rw [if_pos hcond]
        refine ⟨{ acc with fullDomains := d.value :: acc.fullDomains }, rfl, hp, hre, ?_, ?_, ?_⟩
        · intro v hv
          rcases List.mem_cons.mp hv with h1 | h1
          · exact ⟨d, by simp, h1⟩
          · obtain ⟨e, he, hev⟩ := hfull v h1
            exact ⟨e, by simp [he], hev⟩
        · intro v hv
          obtain ⟨e, he, hev⟩ := hroot v hv
          exact ⟨e, by simp [he], hev⟩
        · intro g hg
          obtain ⟨hgt, e, he, hev⟩ := hattr g hg
          exact ⟨hgt, e, by simp [he], hev⟩
      · rw [if_neg hcond]
        refine ⟨{ acc with attrDomains :=
            ⟨GeositeDomainType.full, d.value, none, d.attrKeys⟩ :: acc.attrDomains },
            rfl, hp, hre, ?_, ?_, ?_⟩
        · intro v hv
          obtain ⟨e, he, hev⟩ := hfull v hv
          exact ⟨e, by simp [he], hev⟩
        · intro v hv
          obtain ⟨e, he, hev⟩ := hroot v hv
          exact ⟨e, by simp [he], hev⟩
        · intro g hg
          rcases List.mem_cons.mp hg with h1 | h1
          · subst h1
            exact ⟨Or.inl rfl, d, by simp, rfl⟩
          · obtain ⟨hgt, e, he, hev⟩ := hattr g h1
            exact ⟨hgt, e, by simp [he], hev⟩
    · simp only [gsClassify, hacc, Option.bind_eq_bind, Option.some_bind, hd]
      by_cases hcond : ((if attrs.length > 0 then
            (if d.attrKeys.length = 0 then false else attrs.all fun a => d.attrKeys.contains a)
          else true) &&
          (decide (d.attrKeys.length = 0) || !decide (attrs.length > 0))) = true
      · rw [if_pos hcond]
        refine ⟨{ acc with rootDomains := d.value :: acc.rootDomains }, rfl, hp, hre, ?_, ?_, ?_⟩
        · intro v hv
          obtain ⟨e, he, hev⟩ := hfull v hv
          exact ⟨e, by simp [he], hev⟩
        · intro v hv
          rcases List.mem_cons.mp hv with h1 | h1
          · exact ⟨d, by simp, h1⟩
          · obtain ⟨e, he, hev⟩ := hroot v h1
            exact ⟨e, by simp [he], hev⟩
        · intro g hg
          obtain ⟨hgt, e, he, hev⟩ := hattr g hg
          exact ⟨hgt, e, by simp [he], hev⟩
      · rw [if_neg hcond]
        refine ⟨{ acc with attrDomains :=
            ⟨GeositeDomainType.root, d.value, none, d.attrKeys⟩ :: acc.attrDomains },
            rfl, hp, hre, ?_, ?_, ?_⟩
        · intro v hv
          obtain ⟨e, he, hev⟩ := hfull v hv
          exact ⟨e, by simp [he], hev⟩
        · intro v hv
          obtain ⟨e, he, hev⟩ := hroot v hv
          exact ⟨e, by simp [he], hev⟩
        · intro g hg
          rcases List.mem_cons.mp hg with h1 | h1
          · subst h1
            exact ⟨Or.inr rfl, d, by simp, rfl⟩
          · obtain ⟨hgt, e, he, hev⟩ := hattr g h1
            exact ⟨hgt, e, by simp [he], hev⟩

/-- startsWithB of the empty string with a nonempty prefix is false. -/
theorem startsWithB_nil_of_ne {p : List Nat} (h : p ≠ []) : startsWithB [] p = false := by
  cases p with
  | nil => exact absurd rfl h
  | cons a as => rfl

/-- A Full or RootDomain geosite entry with a nonempty value never matches
    the empty host name: equality with a nonempty value fails and the
    dot-prefixed suffix is longer than the empty name. -/
theorem matchDomainWithAttrs_empty_name (m : GeositeMatcher) (g : GeositeDomain)
    (hgt : g.dtype = GeositeDomainType.full ∨ g.dtype = GeositeDomainType.root)
    (hv : g.value ≠ []) :
    matchDomainWithAttrs m g ⟨[], none, none⟩ = false := by
  unfold matchDomainWithAttrs
  split
  · rcases hgt with hgt | hgt <;> rw [hgt]
    · show (([] : List Nat) == g.value) = false
      rw [beq_eq_false_iff_ne]
      exact fun hc => hv hc.symm
    · show (([] : List Nat) == g.value || hasSuffixB [] (46 :: g.value)) = false
      have h1 : (([] : List Nat) == g.value) = false := by
        rw [beq_eq_false_iff_ne]
        exact fun hc => hv hc.symm
      have h2 : hasSuffixB [] (46 :: g.value) = false := by
        show startsWithB [] ((46 :: g.value).reverse) = false
        exact startsWithB_nil_of_ne (by simp)
      rw [h1, h2]
      rfl
  · rfl

/-- C7 (corrected): the claim as stated fails for an inverse geoip matcher
    (c7_counterexample); amended, the entirely empty HostInfo yields no
    host match for every geosite matcher compiled from Full/RootDomain
    entries with nonempty sentinel-free values, and for every geoip
    matcher whose country does not declare inverseMatch. -/
theorem c7_empty_host_amended
    (list : GeoSiteData) (attrs : List (List Nat))
    (oracle : List Nat → Option (List Nat → Bool)) (gm : GeositeMatcher)
    (hty : ∀ d ∈ list.domain,
      d.dtype = GeodatDomainType.full ∨ d.dtype = GeodatDomainType.rootDomain)
    (hval : ∀ d ∈ list.domain, d.value ≠ [] ∧ ∀ b ∈ d.value, b ≠ 10 ∧ b ≠ 13)
    (hgm : newGeositeMatcher list attrs oracle = some gm)
    (ip : GeoIPData) (m : GeoipMatcher)
    (hm : newGeoIPMatcher ip = some m) (hinv : ip.inverseMatch = false) :
    geositeMatch gm ⟨[], none, none⟩ = false ∧
    geoipMatch m ⟨[], none, none⟩ = false := by
  constructor
  · obtain ⟨acc, hacc, hp, hre, hfull, hroot, hattr⟩ :=
      gsClassify_full_root attrs oracle list.domain hty
    unfold newGeositeMatcher at hgm
    rw [hacc] at hgm
    dsimp only at hgm
    injection hgm with hgm
    subst hgm
    have hf' : ∀ v ∈ acc.fullDomains, v ≠ [] ∧ ∀ b ∈ v, b ≠ 10 ∧ b ≠ 13 := by
      intro v hv
      obtain ⟨d, hd, rfl⟩ := hfull v hv
      exact hval d hd
    have hr' : ∀ v ∈ acc.rootDomains, v ≠ [] ∧ ∀ b ∈ v, b ≠ 10 ∧ b ≠ 13 := by
      intro v hv
      obtain ⟨d, hd, rfl⟩ := hroot v hv
      exact hval d hd
    unfold geositeMatch
    dsimp only
    rw [hp, hre]
    simp only [List.any_nil, Bool.or_false]
    have hattrany : ∀ g ∈ acc.attrDomains, ¬ (matchDomainWithAttrs
        ⟨(if acc.fullDomains.length > 0 || acc.rootDomains.length > 0 then
            some (NewMatcher acc.fullDomains acc.rootDomains) else none),
          [], [], acc.attrDomains, attrs⟩ g
          ⟨[], none, none⟩ = true) := by
      intro g hg
      obtain ⟨hgt, d, hd, hgv⟩ := hattr g hg
      rw [matchDomainWithAttrs_empty_name _ g hgt (by rw [hgv]; exact (hval d hd).1)]
      simp
    rw [List.any_eq_false.mpr hattrany, Bool.or_false]
    split
    · rename_i dm heq
      have hdm : dm = NewMatcher acc.fullDomains acc.rootDomains := by
        by_cases hc : (decide (acc.fullDomains.length > 0) ||
            decide (acc.rootDomains.length > 0)) = true
        · rw [if_pos hc] at heq
          exact (Option.some.inj heq).symm
        · rw [if_neg hc] at heq
          exact absurd heq (by simp)
      rw [hdm]
      exact matcherMatch_empty_name _ _ hf' hr'
    · rfl
  · have hge : ∀ mm : GeoipMatcher, geoipMatch mm ⟨[], none, none⟩ = mm.inverse :=
      fun _ => rfl
    unfold newGeoIPMatcher at hm
    split at hm
    · exact absurd hm (by simp)
    · injection hm with hm
      subst hm
      exact (hge _).trans hinv

/-- Concrete instance of c7_empty_host_amended: a geosite matcher built
    from the single Full entry example.com and a geoip matcher for
    10.0.0.0/8 without inverseMatch both reject the empty HostInfo. -/
theorem c7_empty_host_amended_witness :
    newGeositeMatcher ⟨strBytes "CN",
        [⟨GeodatDomainType.full, strBytes "example.com", []⟩]⟩ [] (fun _ => none) =
      some ⟨some (NewMatcher [strBytes "example.com"] []), [], [], [], []⟩ ∧
    newGeoIPMatcher ⟨strBytes "CN", [⟨[10, 0, 0, 0], 8⟩], false⟩ =
      some ⟨[⟨[10, 0, 0, 0], 8, 32⟩], [], false⟩ ∧
    (geositeMatch ⟨some (NewMatcher [strBytes "example.com"] []), [], [], [], []⟩
        ⟨[], none, none⟩ = false ∧
     geoipMatch ⟨[⟨[10, 0, 0, 0], 8, 32⟩], [], false⟩ ⟨[], none, none⟩ = false) := by
  refine ⟨rfl, rfl, ?_⟩
  exact c7_empty_host_amended
    ⟨strBytes "CN", [⟨GeodatDomainType.full, strBytes "example.com", []⟩]⟩ []
    (fun _ => none) ⟨some (NewMatcher [strBytes "example.com"] []), [], [], [], []⟩
    (by decide) (by decide) rfl
    ⟨strBytes "CN", [⟨[10, 0, 0, 0], 8⟩], false⟩ ⟨[⟨[10, 0, 0, 0], 8, 32⟩], [], false⟩
    rfl rfl

theorem ord_beq_lt {o : Ordering} (h : (o == Ordering.lt) = true) : o = Ordering.lt := by
  cases o
  · rfl
  · exact absurd h (by decide)
  · exact absurd h (by decide)

theorem cb_self : ∀ a : List Nat, compareBytes a a = Ordering.eq
  | [] => rfl
  | a :: as => by
    unfold compareBytes
    rw [if_neg (lt_irrefl a), if_neg (lt_irrefl a)]
    exact cb_self as

theorem cb_eq_imp : ∀ a b : List Nat, compareBytes a b = Ordering.eq → a = b
  | [], [], _ => rfl
  | [], _ :: _, h => absurd h (by simp [compareBytes])
  | _ :: _, [], h => absurd h (by simp [compareBytes])
  | a :: as, b :: bs, h => by
    unfold compareBytes at h
    split at h
    · exact absurd h (by simp)
    · split at h
      · exact absurd h (by simp)
      · have hab : a = b := by omega
        rw [hab, cb_eq_imp as bs h]

theorem cb_lt_trans : ∀ a b c : List Nat, compareBytes a b = Ordering.lt →
    compareBytes b c = Ordering.lt → compareBytes a c = Ordering.lt
  | [], b, [], _, h2 => by
    cases b with
    | nil => exact absurd h2 (by simp [compareBytes])
    | cons b bs => exact absurd h2 (by simp [compareBytes])
  | [], _, _ :: _, _, _ => rfl
  | _ :: _, b, [], _, h2 => by
    cases b with
    | nil => exact absurd h2 (by simp [compareBytes])
    | cons b bs => exact absurd h2 (by simp [compareBytes])
  | a0 :: as, b, c0 :: cs, h1, h2 => by
    cases b with
    | nil => exact absurd h1 (by simp [compareBytes])
    | cons b0 bs =>
      unfold compareBytes at h1 h2 ⊢
      split at h1
      · split at h2
        · rw [if_pos (by omega : a0 < c0)]
        · split at h2
          · exact absurd h2 (by simp)
          · rw [if_pos (by omega : a0 < c0)]
      · split at h1
        · exact absurd h1 (by simp)
        · split at h2
          · rw [if_pos (by omega : a0 < c0)]
          · split at h2
            · exact absurd h2 (by simp)
            · rw [if_neg (by omega : ¬ a0 < c0), if_neg (by omega : ¬ c0 < a0)]
              exact cb_lt_trans as bs cs h1 h2

theorem cb_le_lt_trans {a b c : List Nat} (h1 : compareBytes a b ≠ Ordering.gt)
    (h2 : compareBytes b c = Ordering.lt) : compareBytes a c = Ordering.lt := by
  cases h : compareBytes a b with
  | lt => exact cb_lt_trans a b c h h2
  | eq => rw [cb_eq_imp a b h]; exact h2
  | gt => exact absurd h h1

theorem cb_lt_le_trans {a b c : List Nat} (h1 : compareBytes a b = Ordering.lt)
    (h2 : compareBytes b c ≠ Ordering.gt) : compareBytes a c = Ordering.lt := by
  cases h : compareBytes b c with
  | lt => exact cb_lt_trans a b c h1 h
  | eq => rw [← cb_eq_imp b c h]; exact h1
  | gt => exact absurd h h2

theorem cb_lt_irrefl (a : List Nat) : compareBytes a a ≠ Ordering.lt := by
  rw [cb_self]
  simp

theorem cb_le_of_pointwise : ∀ (a b : List Nat), a.length = b.length →
    (∀ i, a.getD i 0 ≤ b.getD i 0) → compareBytes a b ≠ Ordering.gt
  | [], [], _, _ => by simp [compareBytes]
  | [], _ :: _, _, _ => by simp [compareBytes]
  | _ :: _, [], h, _ => by simp at h
  | a :: as, b :: bs, h, hp => by
    have h0 : a ≤ b := hp 0
    unfold compareBytes
    split
    · simp
    · split
      · exfalso; omega
      · exact cb_le_of_pointwise as bs (by simpa using h) (fun i => hp (i + 1))

set_option maxRecDepth 4096 in
/-- Masking a byte with the top mask of 8 - s ones clears its s low bits. -/
theorem land_topmask (x s : Nat) (hx : x < 256) (hs : s ≤ 8) :
    x &&& (256 - 2 ^ s) = x - x % 2 ^ s := by
  have h : ∀ s' < 9, ∀ x' < 256, x' &&& (256 - 2 ^ s') = x' - x' % 2 ^ s' := by decide
  exact h s (by omega) x hx

theorem cidrEnd_length (c : IPNet) : (cidrEnd c).length = c.ip.length := by
  unfold cidrEnd
  rw [List.length_map, List.length_range]

theorem cidrEnd_getD (c : IPNet) (i : Nat) (h : i < c.ip.length) :
    (cidrEnd c).getD i 0 = c.ip.getD i 0 + (255 - maskByte c.maskOnes i) := by
  unfold cidrEnd
  rw [List.getD_eq_getElem _ _ (by rw [List.length_map, List.length_range]; exact h)]
  rw [List.getElem_map, List.getElem_range]

theorem ipnet_default_no_contains (ip : List Nat) (h : ip.length = 4) :
    ipnetContains ⟨[], 0, 0⟩ ip = false := by
  unfold ipnetContains
  rw [h]
  simp

/-- A contained address sits between the base and the end of the CIDR,
    byte by byte. -/
theorem contains_bounds {c : IPNet} {ip : List Nat} (hwf : ipnetWF c)
    (hip : ip.length = 4) (hipb : ∀ b ∈ ip, b < 256)
    (hcont : ipnetContains c ip = true) :
    ∀ i, c.ip.getD i 0 ≤ ip.getD i 0 ∧ ip.getD i 0 ≤ (cidrEnd c).getD i 0 := by
  obtain ⟨hl, hbits, hones, hbb, hcanon⟩ := hwf
  intro i
  by_cases hi : i < 4
  · unfold ipnetContains at hcont
    simp only [Bool.and_eq_true] at hcont
    obtain ⟨⟨⟨-, -⟩, -⟩, hall⟩ := hcont
    have hj := List.all_eq_true.mp hall i (List.mem_range.mpr (by omega))
    have heq : c.ip.getD i 0 &&& maskByte c.maskOnes i =
        ip.getD i 0 &&& maskByte c.maskOnes i := beq_iff_eq.mp hj
    have hcanon' := hcanon i hi
    have hxlt : ip.getD i 0 < 256 := by
      have hm : ip.getD i 0 ∈ ip := by
        rw [List.getD_eq_getElem _ _ (by omega)]
        exact List.getElem_mem _
      exact hipb _ hm
    have hblt : c.ip.getD i 0 < 256 := by
      have hm : c.ip.getD i 0 ∈ c.ip := by
        rw [List.getD_eq_getElem _ _ (by omega)]
        exact List.getElem_mem _
      exact hbb _ hm
    have hmdef : maskByte c.maskOnes i = 256 - 2 ^ (8 - min 8 (c.maskOnes - 8 * i)) := rfl
    have hs8 : 8 - min 8 (c.maskOnes - 8 * i) ≤ 8 := by omega
    have hx := land_topmask (ip.getD i 0) _ hxlt hs8
    have hend := cidrEnd_getD c i (by omega)
    have ht1 : 0 < 2 ^ (8 - min 8 (c.maskOnes - 8 * i)) :=
      Nat.pos_pow_of_pos _ (by omega)
    have hmod : ip.getD i 0 % 2 ^ (8 - min 8 (c.maskOnes - 8 * i)) <
        2 ^ (8 - min 8 (c.maskOnes - 8 * i)) := Nat.mod_lt _ ht1
    have hmle : ip.getD i 0 % 2 ^ (8 - min 8 (c.maskOnes - 8 * i)) ≤ ip.getD i 0 :=
      Nat.mod_le _ _
    have h2s : 2 ^ (8 - min 8 (c.maskOnes - 8 * i)) ≤ 2 ^ 8 :=
      Nat.pow_le_pow_right (by omega) hs8
    have h28 : (2 : Nat) ^ 8 = 256 := by norm_num
    rw [hmdef] at heq hcanon'
    rw [hend, hmdef]
    omega
  · have h1 : c.ip.getD i 0 = 0 := List.getD_eq_default _ _ (by omega)
    have h2 : ip.getD i 0 = 0 := List.getD_eq_default _ _ (by omega)
    have h3 : (cidrEnd c).getD i 0 = 0 :=
      List.getD_eq_default _ _ (by rw [cidrEnd_length]; omega)
    omega

theorem contains_lb {c : IPNet} {ip : List Nat} (hwf : ipnetWF c)
    (hip : ip.length = 4) (hipb : ∀ b ∈ ip, b < 256)
    (hcont : ipnetContains c ip = true) :
    compareBytes c.ip ip ≠ Ordering.gt :=
  cb_le_of_pointwise c.ip ip (by rw [hwf.1, hip])
    (fun i => (contains_bounds hwf hip hipb hcont i).1)

theorem contains_ub {c : IPNet} {ip : List Nat} (hwf : ipnetWF c)
    (hip : ip.length = 4) (hipb : ∀ b ∈ ip, b < 256)
    (hcont : ipnetContains c ip = true) :
    compareBytes ip (cidrEnd c) ≠ Ordering.gt :=
  cb_le_of_pointwise ip (cidrEnd c) (by rw [cidrEnd_length, hwf.1, hip])
    (fun i => (contains_bounds hwf hip hipb hcont i).2)

theorem base_le_end (c : IPNet) : compareBytes c.ip (cidrEnd c) ≠ Ordering.gt := by
  refine cb_le_of_pointwise c.ip (cidrEnd c) (cidrEnd_length c).symm (fun i => ?_)
  by_cases hi : i < c.ip.length
  · rw [cidrEnd_getD c i hi]
    omega
  · rw [List.getD_eq_default _ _ (by omega),
      List.getD_eq_default _ _ (by rw [cidrEnd_length]; omega)]

/-- Soundness of the binary-search loop: a true answer exhibits a list
    entry containing the address. -/
theorem searchLoop_hit (n : List IPNet) (ip : List Nat) (hip : ip.length = 4) :
    ∀ fuel : Nat, ∀ left right : Int,
      searchLoop n ip fuel left right = true →
      ∃ c ∈ n, ipnetContains c ip = true := by
  intro fuel
  induction fuel with
  | zero => intro l r h; exact absurd h (by simp [searchLoop])
  | succ f ih =>
    intro l r h
    simp only [searchLoop] at h
    by_cases hlr : l ≤ r
    · rw [if_pos hlr] at h
      by_cases hc : ipnetContains (n.getD ((l + r) / 2).toNat ⟨[], 0, 0⟩) ip = true
      · by_cases hm : ((l + r) / 2).toNat < n.length
        · refine ⟨n.getD ((l + r) / 2).toNat ⟨[], 0, 0⟩, ?_, hc⟩
          rw [List.getD_eq_getElem _ _ hm]
          exact List.getElem_mem _
        · rw [List.getD_eq_default _ _ (by omega)] at hc
          exact absurd hc (by rw [ipnet_default_no_contains ip hip]; simp)
      · rw [if_neg hc] at h
        by_cases hlt : (compareBytes (n.getD ((l + r) / 2).toNat ⟨[], 0, 0⟩).ip ip ==
            Ordering.lt) = true
        · rw [if_pos hlt] at h
          exact ih _ _ h
        · rw [if_neg hlt] at h
          exact ih _ _ h
    · rw [if_neg hlr] at h
      exact absurd h (by simp)

/-- Completeness of the binary-search loop on a sorted list of pairwise
    range-disjoint canonical entries: if some entry inside the searched
    interval contains the address, the loop answers true. -/
theorem searchLoop_finds (n : List IPNet) (ip : List Nat)
    (hwf : ∀ c ∈ n, ipnetWF c) (hip : ip.length = 4) (hipb : ∀ b ∈ ip, b < 256)
    (hdisj : ∀ (i j : Nat) (hi : i < n.length) (hj : j < n.length), i < j →
      compareBytes (cidrEnd n[i]) (n[j]).ip = Ordering.lt) :
    ∀ fuel : Nat, ∀ left right : Int, ∀ k : Nat, ∀ hk : k < n.length,
      left ≤ (k : Int) → (k : Int) ≤ right → right < (n.length : Int) →
      right - left < (fuel : Int) →
      ipnetContains n[k] ip = true →
      searchLoop n ip fuel left right = true := by
  intro fuel
  induction fuel with
  | zero =>
    intro l r k hk h1 h2 h3 h4 h5
    exfalso
    omega
  | succ f ih =>
    intro l r k hk h1 h2 h3 h4 hcont
    simp only [searchLoop]
    rw [if_pos (show l ≤ r by omega)]
    have hmidlt : ((l + r) / 2).toNat < n.length := by omega
    have hmid1 : l ≤ (((l + r) / 2).toNat : Int) := by omega
    have hmid2 : (((l + r) / 2).toNat : Int) ≤ r := by omega
    rw [List.getD_eq_getElem _ _ hmidlt]
    by_cases hc : ipnetContains n[((l + r) / 2).toNat] ip = true
    · rw [if_pos hc]
    · rw [if_neg hc]
      have hkne : k ≠ ((l + r) / 2).toNat := by
        intro he
        rw [show n[k] = n[((l + r) / 2).toNat] from by congr 1] at hcont
        exact hc hcont
      by_cases hlt : (compareBytes (n[((l + r) / 2).toNat]).ip ip == Ordering.lt) = true
      · rw [if_pos hlt]
        have hmk : ((l + r) / 2).toNat < k := by
          rcases Nat.lt_or_ge k ((l + r) / 2).toNat with hcase | hcase
          · exfalso
            have hd := hdisj k ((l + r) / 2).toNat hk hmidlt hcase
            have hub := contains_ub (hwf _ (List.getElem_mem hk)) hip hipb hcont
            have hbr : compareBytes (n[((l + r) / 2).toNat]).ip ip = Ordering.lt :=
              ord_beq_lt hlt
            exact cb_lt_irrefl ip (cb_lt_trans _ _ _ (cb_le_lt_trans hub hd) hbr)
          · omega
        exact ih (((l + r) / 2).toNat + 1) r k hk (by omega) h2 h3 (by omega) hcont
      · rw [if_neg hlt]
        have hmk : k < ((l + r) / 2).toNat := by
          rcases Nat.lt_or_ge ((l + r) / 2).toNat k with hcase | hcase
          · exfalso
            have hd := hdisj ((l + r) / 2).toNat k hmidlt hk hcase
            have hlb := contains_lb (hwf _ (List.getElem_mem hk)) hip hipb hcont
            have hbe := base_le_end n[((l + r) / 2).toNat]
            have : compareBytes (n[((l + r) / 2).toNat]).ip ip = Ordering.lt :=
              cb_le_lt_trans hbe (cb_lt_le_trans hd hlb)
            rw [this] at hlt
            exact hlt rfl
          · omega
        exact ih l (((l + r) / 2).toNat - 1) k hk h1 (by omega) (by omega) (by omega) hcont

/-- C2 (corrected): with canonical, sorted, pairwise range-disjoint v4
    entries, geoip Match answers the negated inverse flag on a host whose
    v4 address is contained in some entry, and the inverse flag itself
    when no entry contains it. -/
theorem c2_geoip_symmetry_amended
    (n4 n6 : List IPNet) (name ip : List Nat) (inv : Bool)
    (hip : ip.length = 4) (hipb : ∀ b ∈ ip, b < 256)
    (hwf : ∀ c ∈ n4, ipnetWF c)
    (hdisj : List.Pairwise (fun a b => compareBytes (cidrEnd a) b.ip = Ordering.lt) n4) :
    ((∃ c ∈ n4, ipnetContains c ip = true) →
      geoipMatch ⟨n4, n6, inv⟩ ⟨name, some ip, none⟩ = !inv) ∧
    ((∀ c ∈ n4, ipnetContains c ip = false) →
      geoipMatch ⟨n4, n6, inv⟩ ⟨name, some ip, none⟩ = inv) := by
  have hm4 : matchIP ⟨n4, n6, inv⟩ ip =
      searchLoop n4 ip (n4.length + 1) 0 ((n4.length : Int) - 1) := by
    unfold matchIP to4
    rw [if_pos hip]
  constructor
  · rintro ⟨c, hcmem, hccont⟩
    obtain ⟨k, hk, hck⟩ := List.mem_iff_getElem.mp hcmem
    have hs : searchLoop n4 ip (n4.length + 1) 0 ((n4.length : Int) - 1) = true := by
      refine searchLoop_finds n4 ip hwf hip hipb ?_ (n4.length + 1) 0 _ k hk
        (by omega) (by omega) (by omega) (by omega) (by rw [hck]; exact hccont)
      intro i j hi hj hij
      exact List.pairwise_iff_getElem.mp hdisj i j hi hj hij
    simp [geoipMatch, hm4, hs]
  · intro hnone
    have hs : searchLoop n4 ip (n4.length + 1) 0 ((n4.length : Int) - 1) = false := by
      by_cases h : searchLoop n4 ip (n4.length + 1) 0 ((n4.length : Int) - 1) = true
      · obtain ⟨c, hcmem, hccont⟩ := searchLoop_hit n4 ip hip _ _ _ h
        rw [hnone c hcmem] at hccont
        exact absurd hccont (by simp)
      · exact Bool.eq_false_iff.mpr h
    simp [geoipMatch, hm4, hs]

/-- Concrete instance of c2_geoip_symmetry_amended: 10.3.5.5, inside
    10.0.0.0/8 of the disjoint sorted list [10.0.0.0/8, 172.16.0.0/12],
    is matched. -/
theorem c2_geoip_symmetry_amended_witness :
    geoipMatch ⟨[⟨[10, 0, 0, 0], 8, 32⟩, ⟨[172, 16, 0, 0], 12, 32⟩], [], false⟩
      ⟨[], some [10, 3, 5, 5], none⟩ = true := by
  have h := c2_geoip_symmetry_amended
    [⟨[10, 0, 0, 0], 8, 32⟩, ⟨[172, 16, 0, 0], 12, 32⟩] [] [] [10, 3, 5, 5] false
    (by decide) (by decide) (by decide) (by decide)
  exact h.1 ⟨⟨[10, 0, 0, 0], 8, 32⟩, by decide, by decide⟩
